import Mathlib

set_option maxRecDepth 10000

/-! Verification development for the idealista-notify-bot repository.

Python strings are modeled as lists of characters (`PyStr`); Python float
values are modeled exactly, as rationals extended with infinities and NaN
(`PyFloat`).  Binary64 rounding and overflow of CPython floats are not
modeled: numeric values are kept as exact rationals.  Character predicates
(digits, whitespace, case mapping) are modeled on the Latin-1 range, which
covers every input the price/URL pipelines are exercised on. -/

abbrev PyStr := List Char

/-- Whitespace recognized by Python str.strip and str.split, restricted to
the Latin-1 range (space, tab, LF, CR, VT, FF, FS, GS, RS, US, NEL, NBSP). -/
def isPySpace (c : Char) : Bool :=
  c.toNat = 32 || c.toNat = 9 || c.toNat = 10 || c.toNat = 13 ||
  c.toNat = 11 || c.toNat = 12 || c.toNat = 28 || c.toNat = 29 ||
  c.toNat = 30 || c.toNat = 31 || c.toNat = 133 || c.toNat = 160

/-- ASCII decimal digit, the digits accepted by CPython number parsing and
matched by the regular expression d+ in the webapp price parser. -/
def isDigitC (c : Char) : Bool := 48 ≤ c.toNat && c.toNat ≤ 57

/-- ASCII alphabetic character (CPython urlsplit checks isascii and isalpha). -/
def isAsciiAlpha (c : Char) : Bool :=
  (65 ≤ c.toNat && c.toNat ≤ 90) || (97 ≤ c.toNat && c.toNat ≤ 122)

/-- ASCII lower-casing, as Python str.lower acts on ASCII letters. -/
def pyLower (c : Char) : Char :=
  if 65 ≤ c.toNat && c.toNat ≤ 90 then Char.ofNat (c.toNat + 32) else c

/-- Python str.strip: drop whitespace from both ends. -/
def pyStrip (l : PyStr) : PyStr :=
  ((l.dropWhile isPySpace).reverse.dropWhile isPySpace).reverse

/-- Python str.replace for a single-character pattern with empty replacement. -/
def charRemove (t : Char) (l : PyStr) : PyStr := l.filter (fun c => !(c = t))

/-- Python str.replace for a single-character pattern and single-character
replacement. -/
def charReplace (t r : Char) (l : PyStr) : PyStr :=
  l.map (fun c => if c = t then r else c)

/-- Helper for replaceStr: fuel-indexed scan, where the fuel is an upper
bound on the number of characters still to be examined. -/
def replaceStrAux (pat rep : PyStr) : ℕ → PyStr → PyStr
  | 0, l => l
  | _ + 1, [] => []
  | fuel + 1, c :: rest =>
    if pat ≠ [] ∧ pat.isPrefixOf (c :: rest) then
      rep ++ replaceStrAux pat rep fuel (List.drop pat.length (c :: rest))
    else
      c :: replaceStrAux pat rep fuel rest

/-- Python str.replace for a multi-character pattern: leftmost,
non-overlapping matches, scanning left to right. -/
def replaceStr (pat rep : PyStr) (l : PyStr) : PyStr :=
  replaceStrAux pat rep l.length l

/-- First element of Python str.split with no separator (whitespace runs);
none when the string has no token (IndexError in the source). -/
def firstToken (l : PyStr) : Option PyStr :=
  let t := (l.dropWhile isPySpace).takeWhile (fun c => !isPySpace c)
  if t = [] then none else some t

/-- Split a character list at every occurrence of a separator character,
keeping empty segments (Python str.split with an explicit separator). -/
def splitOnChar (t : Char) : PyStr → List PyStr
  | [] => [[]]
  | c :: r =>
    if c = t then [] :: splitOnChar t r
    else
      match splitOnChar t r with
      | [] => [[c]]
      | h :: tl => (c :: h) :: tl

/-- Numeric value of a digit character. -/
def digitVal (c : Char) : ℕ := c.toNat - 48

/-- Value of a list of decimal digit characters. -/
def digitsToNat (l : PyStr) : ℕ := l.foldl (fun a c => a * 10 + digitVal c) 0

/-- Validity of a digit group with PEP 515 underscores: splitting on the
underscore yields only nonempty all-digit groups. -/
def validDigitGroups (l : PyStr) : Bool :=
  (splitOnChar '_' l).all (fun g => !g.isEmpty && g.all isDigitC)

/-- Remove PEP 515 underscores from a digit part. -/
def dropUnderscores (l : PyStr) : PyStr := l.filter (fun c => !(c = '_'))

/-- Value of a CPython float, with the binary64 value kept as an exact
rational. -/
inductive PyFloat where
  | finite (q : ℚ)
  | inf
  | ninf
  | nan
deriving DecidableEq

/-- Optional leading sign of a CPython float literal: (isNegative, rest). -/
def splitSign (l : PyStr) : Bool × PyStr :=
  match l with
  | [] => (false, [])
  | c :: r =>
    if c = '+' then (false, r)
    else if c = '-' then (true, r)
    else (false, c :: r)

/-- CPython float() on a string: optional surrounding whitespace, optional
sign, then inf/infinity/nan (case-insensitive) or a decimal literal with
optional fractional part, optional exponent and PEP 515 underscores.  The
value is kept as an exact rational (binary64 rounding not modeled). -/
def pyFloatParse (t : PyStr) : Option PyFloat :=
  let t1 := pyStrip t
  let s := splitSign t1
  let low := s.2.map pyLower
  if low = ['i', 'n', 'f'] || low = ['i', 'n', 'f', 'i', 'n', 'i', 't', 'y'] then
    some (if s.1 then PyFloat.ninf else PyFloat.inf)
  else if low = ['n', 'a', 'n'] then
    some PyFloat.nan
  else
    let mant := s.2.takeWhile (fun c => !(c = 'e') && !(c = 'E'))
    let hasExp : Bool := mant.length < s.2.length
    let expPart := s.2.drop (mant.length + 1)
    let intPart := mant.takeWhile (fun c => !(c = '.'))
    let fracPart := mant.drop (intPart.length + 1)
    let intOk : Bool := intPart.isEmpty || validDigitGroups intPart
    let fracOk : Bool := fracPart.isEmpty || validDigitGroups fracPart
    let anyDigit : Bool := !intPart.isEmpty || !fracPart.isEmpty
    let es := splitSign expPart
    let expOk : Bool := !hasExp || validDigitGroups es.2
    if intOk && fracOk && anyDigit && expOk then
      let iv : ℚ := (digitsToNat (dropUnderscores intPart) : ℚ)
      let fd := dropUnderscores fracPart
      let fv : ℚ := (digitsToNat fd : ℚ) / (10 : ℚ) ^ fd.length
      let base : ℚ := iv + fv
      let withExp : ℚ :=
        if hasExp then
          let e := digitsToNat (dropUnderscores es.2)
          if es.1 then base / (10 : ℚ) ^ e else base * (10 : ℚ) ^ e
        else base
      some (PyFloat.finite (if s.1 then -withExp else withExp))
    else
      none

/-- Round a rational to the nearest integer, ties to even (CPython float
formatting with precision 0). -/
def roundHalfEven (q : ℚ) : ℤ :=
  let f := q.floor
  let r := q - (f : ℚ)
  if r < 1 / 2 then f
  else if 1 / 2 < r then f + 1
  else if f % 2 = 0 then f else f + 1

/-- Insert a comma after every third character; intended to be applied to a
reversed digit list (Python format specifier with a comma). -/
def group3 : PyStr → PyStr
  | a :: b :: c :: d :: rest => a :: b :: c :: ',' :: group3 (d :: rest)
  | l => l

/-- Decimal rendering of an integer with thousands separators (commas). -/
def intThousands (z : ℤ) : PyStr :=
  let ds := Nat.toDigits 10 z.natAbs
  let g := (group3 ds.reverse).reverse
  if z < 0 then '-' :: g else g

/-- Format string of the search-results price parser: the float rendered
with separator commas and no decimals, commas turned into spaces, then a
euro sign. -/
def fmtPriceSearch (v : PyFloat) : PyStr :=
  match v with
  | PyFloat.finite q =>
    charReplace ',' ' ' (intThousands (roundHalfEven q)) ++ [' ', '€']
  | PyFloat.inf => ['i', 'n', 'f', ' ', '€']
  | PyFloat.ninf => ['-', 'i', 'n', 'f', ' ', '€']
  | PyFloat.nan => ['n', 'a', 'n', ' ', '€']

/-- Cleanup pipeline of _parse_price in src/idealista/scraper.py: remove the
euro sign, remove dots, turn commas into dots, take the part before the
first slash, strip. -/
def searchCleanup (l : PyStr) : PyStr :=
  pyStrip ((charReplace ',' '.' (charRemove '.' (charRemove '€' l))).takeWhile
    (fun c => !(c = '/')))

/-- Model of _parse_price in src/idealista/scraper.py: empty input yields the
N/A sentinel; otherwise the first whitespace token of the cleaned text is
parsed by float(); ValueError or IndexError yield the original text with a
zero value. -/
def _parse_price (l : PyStr) : PyStr × PyFloat :=
  if l = [] then (['N', '/', 'A'], PyFloat.finite 0)
  else
    match firstToken (searchCleanup l) with
    | none => (l, PyFloat.finite 0)
    | some tok =>
      match pyFloatParse tok with
      | none => (l, PyFloat.finite 0)
      | some v => (fmtPriceSearch v, v)

/-- Cleanup pipeline of parse_price in src/webapp/services/scraper_service.py:
remove the euro sign, remove the substring "/mes", strip, then remove dots
and commas. -/
def webappCleanup (l : PyStr) : PyStr :=
  charRemove ','
    (charRemove '.' (pyStrip (replaceStr ['/', 'm', 'e', 's'] [] (charRemove '€' l))))

/-- First maximal run of decimal digits (first match of the regular
expression d+), none when the string has no digit. -/
def firstDigitRun (l : PyStr) : Option PyStr :=
  let r := (l.dropWhile (fun c => !isDigitC c)).takeWhile isDigitC
  if r = [] then none else some r

/-- Model of parse_price in src/webapp/services/scraper_service.py: the first
digit run of the cleaned text becomes the value; otherwise the original text
with a zero value.  The int() truncation of the float is exact here because
the run parses to a nonnegative integer. -/
def parse_price (l : PyStr) : PyStr × PyFloat :=
  if l = [] then (['N', '/', 'A'], PyFloat.finite 0)
  else
    match firstDigitRun (webappCleanup l) with
    | none => (l, PyFloat.finite 0)
    | some run =>
      (charReplace ',' ' ' (intThousands (digitsToNat run : ℤ)) ++
        [' ', 'E', 'U', 'R'], PyFloat.finite (digitsToNat run : ℚ))

/-- Scraped listing record (dataclass Listing in src/idealista/scraper.py). -/
structure Listing where
  url : PyStr
  title : PyStr
  price : PyStr
  price_value : PyFloat
  rooms : PyStr
  size : PyStr
  floor : PyStr
  description : PyStr
  thumbnail : PyStr
  telephone : PyStr
deriving DecidableEq

/-- Exclusion lists EXCLUDED_AREAS, EXCLUDED_TERMS, EXCLUDED_FLOORS from
config.py, modeled as deployment configuration parameters. -/
structure FilterConfig where
  excludedAreas : List PyStr
  excludedTerms : List PyStr
  excludedFloors : List PyStr

/-- Python substring containment (the in operator on strings). -/
def isSubstr (needle : PyStr) : PyStr → Bool
  | [] => needle.isPrefixOf []
  | c :: rest => needle.isPrefixOf (c :: rest) || isSubstr needle rest

/-- Python str.lower, ASCII case mapping. -/
def lowerStr (l : PyStr) : PyStr := l.map pyLower

/-- Model of _should_exclude in src/idealista/scraper.py: case-insensitive
substring checks of the area and term lists against title-space-description,
and of the floor list against the floor text. -/
def _should_exclude (cfg : FilterConfig) (x : Listing) : Bool :=
  let text := lowerStr (x.title ++ ' ' :: x.description)
  cfg.excludedAreas.any (fun a => isSubstr (lowerStr a) text) ||
  cfg.excludedTerms.any (fun t => isSubstr (lowerStr t) text) ||
  cfg.excludedFloors.any (fun f => isSubstr (lowerStr f) (lowerStr x.floor))

/-- The accumulation loop of scrape_listings in src/idealista/scraper.py:
articles that fail to parse are skipped, excluded listings are skipped,
everything else is kept in order. -/
def collectListings (cfg : FilterConfig) : List (Option Listing) → List Listing
  | [] => []
  | none :: rest => collectListings cfg rest
  | some x :: rest =>
    if _should_exclude cfg x then collectListings cfg rest
    else x :: collectListings cfg rest

/-- Model of scrape_listings in src/idealista/scraper.py with the network
fetch abstracted as its outcome: none models a transport failure or
non-success upstream status (return value ([], True)); some articles models
a successful fetch whose parsed article fragments are then filtered. -/
def scrape_listings (cfg : FilterConfig)
    (fetchResult : Option (List (Option Listing))) : List Listing × Bool :=
  match fetchResult with
  | none => ([], true)
  | some arts => (collectListings cfg arts, false)

/-- The optional per-page dedup callback of scrape_all_pages: identity when
absent. -/
def applyDedupe (df : Option (List Listing → List Listing))
    (ls : List Listing) : List Listing :=
  match df with
  | none => ls
  | some f => f ls

/-- Page loop of scrape_all_pages in src/idealista/scraper.py, with the
per-page scrape outcome abstracted as a function from page number to either
none (fetch error) or the page listings after extraction and filtering.
The fuel argument counts the pages still allowed by max_pages. -/
def scrapePagesGo (fetch : ℕ → Option (List Listing))
    (df : Option (List Listing → List Listing)) (minNew : ℕ) :
    ℕ → ℕ → List Listing × Bool
  | _, 0 => ([], false)
  | page, fuel + 1 =>
    match fetch page with
    | none => ([], true)
    | some ls =>
      let d := applyDedupe df ls
      if d.length ≤ minNew then (d, false)
      else
        let r := scrapePagesGo fetch df minNew (page + 1) fuel
        (d ++ r.1, r.2)

/-- Model of scrape_all_pages in src/idealista/scraper.py: pages 1 through
max_pages are visited in order; a fetch error stops with error_occurred
true; a page whose (optionally deduped) listing count is at most
min_new_to_continue stops normally after being accumulated. -/
def scrape_all_pages (fetch : ℕ → Option (List Listing))
    (df : Option (List Listing → List Listing)) (maxPages minNew : ℕ) :
    List Listing × Bool :=
  scrapePagesGo fetch df minNew 1 maxPages

/-- Listings contributed by one page (empty for a failed page). -/
def pageYield (fetch : ℕ → Option (List Listing))
    (df : Option (List Listing → List Listing)) (p : ℕ) : List Listing :=
  match fetch p with
  | none => []
  | some ls => applyDedupe df ls

/-- Concatenated yields of cnt consecutive pages starting at the given page. -/
def gatherFrom (fetch : ℕ → Option (List Listing))
    (df : Option (List Listing → List Listing)) (page cnt : ℕ) : List Listing :=
  ((List.range cnt).map (fun k => pageYield fetch df (page + k))).flatten

/-- Concatenated yields of pages 1 through j. -/
def gatherPages (fetch : ℕ → Option (List Listing))
    (df : Option (List Listing → List Listing)) (j : ℕ) : List Listing :=
  gatherFrom fetch df 1 j

/-- State of the seen-set store of src/idealista/scraper.py: the in-memory
cache _seen_urls (none before first load) and the durable file content
(none when the file does not exist).  The Python set is modeled as a
duplicate-free list built by membership-checked insertion. -/
structure SeenState where
  mem : Option (List PyStr)
  file : Option PyStr
deriving DecidableEq

/-- Set insertion (Python set.add). -/
def setInsert (s : List PyStr) (u : PyStr) : List PyStr :=
  if u ∈ s then s else s ++ [u]

/-- Line loop of load_seen_listings: strip each line, keep nonempty results. -/
def parseSeenLines (acc : List PyStr) : List PyStr → List PyStr
  | [] => acc
  | line :: rest =>
    let url := pyStrip line
    if url = [] then parseSeenLines acc rest
    else parseSeenLines (setInsert acc url) rest

/-- Read the durable seen file: a missing file yields the empty set; the
content is split into lines at every newline. -/
def parseSeenFile (f : Option PyStr) : List PyStr :=
  match f with
  | none => []
  | some content => parseSeenLines [] (splitOnChar '\n' content)

/-- Model of load_seen_listings in src/idealista/scraper.py: return the
cached set when present, otherwise hydrate it from the file. -/
def load_seen_listings (st : SeenState) : List PyStr × SeenState :=
  match st.mem with
  | some s => (s, st)
  | none =>
    let s := parseSeenFile st.file
    (s, SeenState.mk (some s) st.file)

/-- Model of save_seen_listings in src/idealista/scraper.py: write every
cached URL followed by a newline; a cache that was never loaded is not
written. -/
def save_seen_listings (st : SeenState) : SeenState :=
  match st.mem with
  | none => st
  | some s => SeenState.mk (some s) (some ((s.map (fun u => u ++ ['\n'])).flatten))

/-- Model of add_seen_url in src/idealista/scraper.py: load if needed,
insert, persist. -/
def add_seen_url (st : SeenState) (u : PyStr) : SeenState :=
  let r := load_seen_listings st
  save_seen_listings (SeenState.mk (some (setInsert r.1 u)) r.2.file)

/-- Model of clear_seen_listings in src/idealista/scraper.py: delete the
durable file and reset the in-memory set to empty. -/
def clear_seen_listings (_st : SeenState) : SeenState :=
  SeenState.mk (some []) none

/-- A load performed by a fresh process sharing only the durable file: the
in-memory cache starts empty. -/
def freshLoad (st : SeenState) : List PyStr :=
  (load_seen_listings (SeenState.mk none st.file)).1

/-- C0 control characters and space, stripped from the front of a URL by
CPython urlsplit. -/
def isC0OrSpace (c : Char) : Bool := c.toNat ≤ 32

/-- Tab, CR and LF, removed anywhere in a URL by CPython urlsplit. -/
def isUnsafeUrlByte (c : Char) : Bool :=
  c.toNat = 9 || c.toNat = 13 || c.toNat = 10

/-- Result of CPython urlsplit restricted to the five components used by
strip_ru_prefix. -/
structure UrlParts where
  scheme : PyStr
  netloc : PyStr
  path : PyStr
  query : PyStr
  fragment : PyStr
deriving DecidableEq

/-- Characters allowed in a URL scheme by CPython urlsplit. -/
def isSchemeChar (c : Char) : Bool :=
  isAsciiAlpha c || isDigitC c || c = '+' || c = '-' || c = '.'

/-- First character is an ASCII letter. -/
def headAlpha : PyStr → Bool
  | [] => false
  | c :: _ => isAsciiAlpha c

/-- The acceptance test of CPython urlsplit scheme detection: a colon
exists, the part before it is nonempty, starts with an ASCII letter and
uses only scheme characters. -/
def schemeCondition (l : PyStr) : Bool :=
  let pre := l.takeWhile (fun c => !(c = ':'))
  decide (pre.length < l.length) && !pre.isEmpty && headAlpha pre &&
    pre.all isSchemeChar

/-- Scheme detection of CPython urlsplit: everything before the first colon,
provided it is nonempty, starts with an ASCII letter and uses only scheme
characters; the scheme is lower-cased. -/
def splitScheme (l : PyStr) : PyStr × PyStr :=
  let pre := l.takeWhile (fun c => !(c = ':'))
  if schemeCondition l then (pre.map pyLower, l.drop (pre.length + 1))
  else ([], l)

/-- A character that does not end the network-location component. -/
def notNetlocDelim (c : Char) : Bool := !(c = '/') && !(c = '?') && !(c = '#')

/-- Netloc detection of CPython urlsplit: after a leading double slash, the
netloc extends to the next slash, question mark or hash. -/
def splitNetloc (l : PyStr) : PyStr × PyStr :=
  if l.take 2 = ['/', '/'] then
    ((l.drop 2).takeWhile notNetlocDelim, (l.drop 2).dropWhile notNetlocDelim)
  else ([], l)

/-- Fragment split at the first hash. -/
def splitFragment (l : PyStr) : PyStr × PyStr :=
  (l.takeWhile (fun c => !(c = '#')), (l.dropWhile (fun c => !(c = '#'))).drop 1)

/-- Query split at the first question mark. -/
def splitQuery (l : PyStr) : PyStr × PyStr :=
  (l.takeWhile (fun c => !(c = '?')), (l.dropWhile (fun c => !(c = '?'))).drop 1)

/-- The splitting core of CPython urlsplit (no character preprocessing). -/
def splitPure (l : PyStr) : UrlParts :=
  let sr := splitScheme l
  let nr := splitNetloc sr.2
  let pf := splitFragment nr.2
  let pq := splitQuery pf.1
  UrlParts.mk sr.1 nr.1 pq.1 pq.2 pf.2

/-- Character preprocessing of CPython urlsplit: strip C0 controls and
spaces from the front, remove tab, CR and LF anywhere. -/
def preprocessUrl (l : PyStr) : PyStr :=
  (l.dropWhile isC0OrSpace).filter (fun c => !isUnsafeUrlByte c)

/-- CPython urlsplit (total model; see urlsplitRaises for the one raising
case, which the model leaves to a side condition). -/
def urlsplit (l : PyStr) : UrlParts := splitPure (preprocessUrl l)

/-- CPython urlsplit raises ValueError when the netloc has unbalanced square
brackets; this predicate is true exactly when it would raise. -/
def urlsplitRaises (l : PyStr) : Bool :=
  let n := (urlsplit l).netloc
  (n.contains '[' && !(n.contains ']')) || (n.contains ']' && !(n.contains '['))

/-- CPython urlunsplit. -/
def urlunsplit (u : UrlParts) : PyStr :=
  let url1 :=
    if !u.netloc.isEmpty || u.path.take 2 = ['/', '/'] then
      '/' :: '/' :: (u.netloc ++
        (if !u.path.isEmpty && !(u.path.take 1 = ['/']) then '/' :: u.path
         else u.path))
    else u.path
  let url2 := if !u.scheme.isEmpty then u.scheme ++ ':' :: url1 else url1
  let url3 := if !u.query.isEmpty then url2 ++ '?' :: u.query else url2
  if !u.fragment.isEmpty then url3 ++ '#' :: u.fragment else url3

/-- Empty path becomes a single slash (path or "/" in the source). -/
def orSlash (p : PyStr) : PyStr := if p = [] then ['/'] else p

/-- The path rewrite of strip_ru_prefix: a path equal to the locale segment
becomes a slash, a path starting with the segment plus slash loses the
segment, anything else is unchanged. -/
def ruStripPath (p : PyStr) : PyStr :=
  if p = ['/', 'r', 'u'] then ['/']
  else if (['/', 'r', 'u', '/']).isPrefixOf p then p.drop 3
  else p

/-- Model of strip_ru_prefix in src/idealista/url_utils.py: empty input is
returned unchanged; otherwise the input is stripped, split, the path
rewritten, and the parts reassembled. -/
def strip_ru (l : PyStr) : PyStr :=
  if l = [] then l
  else
    let parts := urlsplit (pyStrip l)
    urlunsplit (UrlParts.mk parts.scheme parts.netloc
      (ruStripPath (orSlash parts.path)) parts.query parts.fragment)

/-- String-level wrapper of strip_ru. -/
def stripRuS (s : String) : String := String.mk (strip_ru s.data)

/-- A character that survives both the strip in strip_ru_prefix and the
character preprocessing of urlsplit: not Python whitespace and not a C0
control or space.  Every character of a real URL qualifies. -/
def urlSafeChar (c : Char) : Bool := !isPySpace c && !isC0OrSpace c

/-- A path that strip_ru_prefix would still rewrite: equal to the locale
segment or starting with the segment plus slash. -/
def ruishPath (p : PyStr) : Bool :=
  decide (p = ['/', 'r', 'u']) || (['/', 'r', 'u', '/']).isPrefixOf p

/-- A path on which scheme detection cannot fire when the path opens the
reassembled URL: it starts with a slash or a colon, has no colon at all, or
its pre-colon part fails the scheme test. -/
def schemeSafeB (p : PyStr) : Bool :=
  p.take 1 = ['/'] || p.take 1 = [':'] || !(decide (':' ∈ p)) ||
  !(headAlpha (p.takeWhile (fun x => !(x = ':'))) &&
    (p.takeWhile (fun x => !(x = ':'))).all isSchemeChar)

/-- Persisted CRM listing row (class Listing in
src/webapp/database/models.py); timestamps are not modeled. -/
structure DBListing where
  id : ℕ
  idealista_url : Option String
  title : String
  price : String
  price_value : PyFloat
  rooms : String
  size : String
  floor : String
  description : String
  thumbnail : String
  stage : String
  position : ℤ
  priority : ℤ
  source : String
  notes : Option String
deriving DecidableEq

/-- Database state: the listings table and the next autoincrement id. -/
structure DB where
  rows : List DBListing
  nextId : ℕ
deriving DecidableEq

/-- UI-visible stage values from src/webapp/config.py. -/
def STAGES : List String :=
  ["to_be_communicated", "message_sent", "called_by_phone", "in_progress",
   "agreed_on_viewing", "waiting_reply", "rejected"]

/-- Internal-only stage values from src/webapp/config.py. -/
def INTERNAL_STAGES : List String := ["preliminary", "deleted"]

/-- All stage values allowed by the data layer. -/
def STAGE_VALUES : List String := STAGES ++ INTERNAL_STAGES

/-- Query by primary key (first matching row). -/
def get_by_id (rows : List DBListing) (i : ℕ) : Option DBListing :=
  rows.find? (fun r => r.id == i)

/-- Query by Idealista URL (first matching row). -/
def get_by_url (rows : List DBListing) (u : String) : Option DBListing :=
  rows.find? (fun r => r.idealista_url == some u)

/-- Running maximum for the SQL max aggregate. -/
def omax (acc : Option ℤ) (p : ℤ) : Option ℤ :=
  match acc with
  | none => some p
  | some m => some (max m p)

/-- SQL max(position) filtered by stage: none on an empty stage (NULL). -/
def maxPos (rows : List DBListing) (s : String) : Option ℤ :=
  ((rows.filter (fun r => r.stage == s)).map (fun r => r.position)).foldl omax none

/-- The scalar() or 0 idiom: NULL becomes 0; an integer is kept (0 stays 0
under Python or, so getD is exact). -/
def posBase (rows : List DBListing) (s : String) : ℤ := (maxPos rows s).getD 0

/-- In-place update of the first row with the given id (the ORM mutates the
object returned by the query). -/
def setRow : List DBListing → ℕ → (DBListing → DBListing) → List DBListing
  | [], _, _ => []
  | r :: rest, i, f => if r.id = i then f r :: rest else r :: setRow rest i f

/-- Row with stage and position replaced. -/
def DBListing.withStagePos (r : DBListing) (s : String) (p : ℤ) : DBListing :=
  DBListing.mk r.id r.idealista_url r.title r.price r.price_value r.rooms r.size
    r.floor r.description r.thumbnail s p r.priority r.source r.notes

/-- Row with position replaced. -/
def DBListing.withPos (r : DBListing) (p : ℤ) : DBListing :=
  DBListing.mk r.id r.idealista_url r.title r.price r.price_value r.rooms r.size
    r.floor r.description r.thumbnail r.stage p r.priority r.source r.notes

/-- Payload of ListingCreate in src/webapp/api/schemas.py (fields the
service reads; ListingCreate has no position field). -/
structure ListingCreate where
  title : String
  price : String
  price_value : PyFloat
  rooms : String
  size : String
  floor : String
  description : String
  thumbnail : String
  idealista_url : Option String
  notes : Option String
  stage : String
  source : String
deriving DecidableEq

/-- Model of ListingService.create in
src/webapp/services/listing_service.py: position is one more than the
current maximum position of the target stage (0 for an empty stage);
priority defaults to 0; the row id is the autoincrement key. -/
def ListingService.create (db : DB) (d : ListingCreate) : DBListing × DB :=
  let m := posBase db.rows d.stage
  let r := DBListing.mk db.nextId d.idealista_url d.title d.price d.price_value
    d.rooms d.size d.floor d.description d.thumbnail d.stage (m + 1) 0 d.source
    d.notes
  (r, DB.mk (db.rows ++ [r]) (db.nextId + 1))

/-- Outcome of ListingService.update_stage: None for a missing listing, a
raised ValueError for an unrecognized stage, or the updated row.  Every
outcome carries the database state after the call. -/
inductive StageUpdateResult where
  | notFound (db : DB)
  | invalidStage (db : DB)
  | ok (r : DBListing) (db : DB)
deriving DecidableEq

/-- Model of ListingService.update_stage in
src/webapp/services/listing_service.py: the ValueError is raised before any
mutation, and the caller-supplied position is stored verbatim. -/
def ListingService.update_stage (db : DB) (lid : ℕ) (stage : String)
    (pos : ℤ) : StageUpdateResult :=
  match get_by_id db.rows lid with
  | none => StageUpdateResult.notFound db
  | some r =>
    if stage ∈ STAGE_VALUES then
      StageUpdateResult.ok (r.withStagePos stage pos)
        (DB.mk (setRow db.rows lid (fun x => x.withStagePos stage pos)) db.nextId)
    else StageUpdateResult.invalidStage db

/-- One iteration of the reorder loop: ids not found or not in the target
stage are skipped. -/
def reorderStep (stage : String) (rows : List DBListing) (pc : ℕ × ℕ) :
    List DBListing :=
  match get_by_id rows pc.2 with
  | none => rows
  | some r =>
    if r.stage = stage then setRow rows pc.2 (fun x => x.withPos (pc.1 : ℤ))
    else rows

/-- Model of ListingService.reorder_column in
src/webapp/services/listing_service.py: enumerate the card ids and assign
each 0-based index as the position of the matching row, only when that row
currently has the given stage. -/
def ListingService.reorder_column (db : DB) (stage : String)
    (cardIds : List ℕ) : DB :=
  DB.mk (cardIds.enum.foldl (reorderStep stage) db.rows) db.nextId

/-- Fields returned by parse_idealista_url in
src/webapp/services/scraper_service.py. -/
structure ParsedListing where
  title : String
  price : String
  price_value : PyFloat
  rooms : String
  size : String
  floor : String
  description : String
  thumbnail : String
  idealista_url : String
deriving DecidableEq

/-- Outcome of create_listing_from_url in src/bot.py.  Every outcome
carries the database state after the call. -/
inductive BotImportResult where
  | scrapeFailed (db : DB)
  | promoted (r : DBListing) (db : DB)
  | exists_ (r : DBListing) (db : DB)
  | created (r : DBListing) (db : DB)
deriving DecidableEq

/-- Model of create_listing_from_url in src/bot.py with the scrape
abstracted as its outcome: on an existing record the fields are left
untouched; the record is promoted to to_be_communicated with a fresh
position only when its stage differs; otherwise a new row is created. -/
def create_listing_from_url (db : DB) (url : String)
    (parsed : Option ParsedListing) : BotImportResult :=
  match parsed with
  | none => BotImportResult.scrapeFailed db
  | some pd =>
    let m := posBase db.rows "to_be_communicated"
    match get_by_url db.rows url with
    | some r =>
      if r.stage ≠ "to_be_communicated" then
        BotImportResult.promoted (r.withStagePos "to_be_communicated" (m + 1))
          (DB.mk (setRow db.rows r.id
            (fun x => x.withStagePos "to_be_communicated" (m + 1))) db.nextId)
      else BotImportResult.exists_ r db
    | none =>
      let r := DBListing.mk db.nextId
        (some (if pd.idealista_url = "" then url else pd.idealista_url))
        pd.title pd.price pd.price_value pd.rooms pd.size pd.floor
        pd.description pd.thumbnail "to_be_communicated" (m + 1) 0 "telegram"
        none
      BotImportResult.created r (DB.mk (db.rows ++ [r]) (db.nextId + 1))

/-- Outcome of import_from_url in src/webapp/api/routes.py.  Every outcome
carries the database state after the call. -/
inductive WebImportResult where
  | attributeError (db : DB)
  | parseFailed (db : DB)
  | ok (r : DBListing) (db : DB)
deriving DecidableEq

/-- Model of import_from_url in src/webapp/api/routes.py with the scrape
abstracted as its outcome.  When the URL (canonicalized or as given)
already has a record, the route evaluates data.force, but UrlImportRequest
in src/webapp/api/schemas.py declares only url, so the attribute lookup
raises AttributeError outside the try block, before anything is parsed or
written: the call ends with the database unchanged, and the 400-conflict
and field-update code after that line is unreachable.  Without a duplicate
the parsed listing is created through the service. -/
def import_from_url (db : DB) (url : String)
    (parsed : Option ParsedListing) : WebImportResult :=
  let clean := stripRuS url
  let existing := match get_by_url db.rows clean with
    | some e => some e
    | none => get_by_url db.rows url
  match existing with
  | some _ => WebImportResult.attributeError db
  | none =>
    match parsed with
    | none => WebImportResult.parseFailed db
    | some pd =>
      let cd := ListingCreate.mk pd.title pd.price pd.price_value pd.rooms
        pd.size pd.floor pd.description pd.thumbnail (some clean) none
        "to_be_communicated" "url_import"
      let cr := ListingService.create db cd
      WebImportResult.ok cr.1 cr.2

/-- Fixture listing used by concrete witnesses. -/
def demoListing : Listing :=
  Listing.mk ("https://h/x").data ("flat").data ("1 €").data (PyFloat.finite 0)
    ("2 hab.").data ("60 m2").data ("Planta 2").data ("nice").data [] []

/-- Fixture filter configuration used by concrete witnesses. -/
def demoCfg : FilterConfig := FilterConfig.mk [] [("piso").data] []

/-- Fixture page outcome function used by concrete witnesses: pages 1 and 2
succeed with one listing, page 3 fails, later pages succeed. -/
def demoFetch (i : ℕ) : Option (List Listing) :=
  if i = 3 then none else some [demoListing]

/-- Positions assigned by a sequence of create calls, each call running on
the database state left by the previous one. -/
def createPositions (db : DB) : List ListingCreate → List ℤ
  | [] => []
  | d :: ds =>
    (ListingService.create db d).1.position ::
      createPositions (ListingService.create db d).2 ds

/-- Fixture CRM row in the preliminary stage. -/
def demoRow : DBListing :=
  DBListing.mk 7 (some "https://h/x") "old" "1" (PyFloat.finite 0) "" "" "" ""
    "" "preliminary" 0 0 "telegram" none

/-- Fixture CRM row already in the to_be_communicated stage. -/
def demoRowT : DBListing :=
  DBListing.mk 5 (some "https://h/t") "old" "1" (PyFloat.finite 0) "" "" "" ""
    "" "to_be_communicated" 0 0 "telegram" none

/-- Fixture database with the two rows above. -/
def demoDb : DB := DB.mk [demoRowT, demoRow] 9

/-- Fixture parsed listing used by the import-flow witnesses. -/
def demoParsed : ParsedListing :=
  ParsedListing.mk "new" "2" (PyFloat.finite 0) "" "" "" "" "" "https://h/t"

/-- Fixture create payload targeting the to_be_communicated stage. -/
def demoCreate : ListingCreate :=
  ListingCreate.mk "t" "1" (PyFloat.finite 0) "" "" "" "" "" none none
    "to_be_communicated" "manual"

theorem dropWhile_all_false {p : Char → Bool} :
    ∀ l : PyStr, (∀ c ∈ l, p c = false) → l.dropWhile p = l := by
  intro l h
  induction l with
  | nil => rfl
  | cons c r _ =>
    rw [List.dropWhile_cons_of_neg]
    simp [h c (List.mem_cons_self c r)]

theorem takeWhile_all_true {p : Char → Bool} :
    ∀ l : PyStr, (∀ c ∈ l, p c = true) → l.takeWhile p = l := by
  intro l h
  induction l with
  | nil => rfl
  | cons c r ih =>
    rw [List.takeWhile_cons_of_pos (h c (List.mem_cons_self c r))]
    rw [ih (fun x hx => h x (List.mem_cons_of_mem c hx))]

theorem pyStrip_of_no_space {l : PyStr} (h : ∀ c ∈ l, isPySpace c = false) :
    pyStrip l = l := by
  unfold pyStrip
  rw [dropWhile_all_false l h]
  rw [dropWhile_all_false l.reverse (fun c hc => h c (List.mem_reverse.mp hc))]
  exact List.reverse_reverse l

theorem digit_not_space {c : Char} (h : isDigitC c = true) : isPySpace c = false := by
  simp only [isDigitC, Bool.and_eq_true, decide_eq_true_eq] at h
  simp only [isPySpace, Bool.or_eq_false_iff, decide_eq_false_iff_not]
  omega

theorem digit_toNat {c : Char} (h : isDigitC c = true) :
    48 ≤ c.toNat ∧ c.toNat ≤ 57 := by
  simpa only [isDigitC, Bool.and_eq_true, decide_eq_true_eq] using h

theorem digit_ne {c d : Char} (h : isDigitC c = true) (hd : isDigitC d = false) :
    c ≠ d := by
  intro he
  rw [he, hd] at h
  cases h

theorem splitSign_digits {t : PyStr} (hne : t ≠ []) (hd : t.all isDigitC = true) :
    splitSign t = (false, t) := by
  cases t with
  | nil => exact absurd rfl hne
  | cons c r =>
    have hc : isDigitC c = true := by
      have := List.all_eq_true.mp hd c (List.mem_cons_self c r)
      simpa using this
    simp only [splitSign]
    rw [if_neg (digit_ne hc (by decide)), if_neg (digit_ne hc (by decide))]

theorem map_pyLower_digits {t : PyStr} (hd : t.all isDigitC = true) :
    t.map pyLower = t := by
  induction t with
  | nil => rfl
  | cons c r ih =>
    simp only [List.all_cons, Bool.and_eq_true] at hd
    have h1 := digit_toNat hd.1
    simp only [List.map_cons, ih hd.2, List.cons.injEq, and_true]
    unfold pyLower
    rw [if_neg]
    simp only [Bool.and_eq_true, decide_eq_true_eq, not_and]
    omega

theorem splitOnChar_of_not_mem {t : Char} :
    ∀ l : PyStr, (∀ c ∈ l, c ≠ t) → splitOnChar t l = [l] := by
  intro l h
  induction l with
  | nil => rfl
  | cons c r ih =>
    unfold splitOnChar
    rw [if_neg (h c (List.mem_cons_self c r))]
    rw [ih (fun x hx => h x (List.mem_cons_of_mem c hx))]

theorem filter_all_keep {p : Char → Bool} :
    ∀ l : PyStr, (∀ c ∈ l, p c = true) → l.filter p = l := by
  intro l h
  induction l with
  | nil => rfl
  | cons c r ih =>
    rw [List.filter_cons_of_pos (h c (List.mem_cons_self c r))]
    rw [ih (fun x hx => h x (List.mem_cons_of_mem c hx))]

theorem validDigitGroups_digits {t : PyStr} (hne : t ≠ [])
    (hd : t.all isDigitC = true) : validDigitGroups t = true := by
  unfold validDigitGroups
  rw [splitOnChar_of_not_mem t
    (fun c hc => digit_ne (List.all_eq_true.mp hd c hc) (by decide))]
  simp [hne, hd]

theorem dropUnderscores_digits {t : PyStr} (hd : t.all isDigitC = true) :
    dropUnderscores t = t := by
  unfold dropUnderscores
  exact filter_all_keep t (fun c hc => by
    simp only [Bool.not_eq_true', decide_eq_false_iff_not]
    exact digit_ne (List.all_eq_true.mp hd c hc) (by decide))

/-- CPython float() maps a nonempty all-digit token to the exact integer it
spells. -/
theorem pyFloatParse_digits (t : PyStr) (hne : t ≠ []) (hd : t.all isDigitC = true) :
    pyFloatParse t = some (PyFloat.finite (digitsToNat t)) := by
  have hmem : ∀ c ∈ t, isDigitC c = true := List.all_eq_true.mp hd
  have hstrip : pyStrip t = t :=
    pyStrip_of_no_space (fun c hc => digit_not_space (hmem c hc))
  have hsign : splitSign t = (false, t) := splitSign_digits hne hd
  have hlow : t.map pyLower = t := map_pyLower_digits hd
  have htk : t.takeWhile (fun c => !(c = 'e') && !(c = 'E')) = t :=
    takeWhile_all_true t (fun c hc => by
      simp only [Bool.and_eq_true, Bool.not_eq_true', decide_eq_false_iff_not]
      exact ⟨digit_ne (hmem c hc) (by decide), digit_ne (hmem c hc) (by decide)⟩)
  have htk2 : t.takeWhile (fun c => !(c = '.')) = t :=
    takeWhile_all_true t (fun c hc => by
      simp only [Bool.not_eq_true', decide_eq_false_iff_not]
      exact digit_ne (hmem c hc) (by decide))
  have hdropLen : t.drop (t.length + 1) = [] :=
    List.drop_eq_nil_of_le (by omega)
  have hne1 : t ≠ ['i', 'n', 'f'] := by
    intro h
    subst h
    exact absurd hd (by decide)
  have hne2 : t ≠ ['i', 'n', 'f', 'i', 'n', 'i', 't', 'y'] := by
    intro h
    subst h
    exact absurd hd (by decide)
  have hne3 : t ≠ ['n', 'a', 'n'] := by
    intro h
    subst h
    exact absurd hd (by decide)
  have hvd : validDigitGroups t = true := validDigitGroups_digits hne hd
  have hie : t.isEmpty = false := by
    cases t with
    | nil => exact absurd rfl hne
    | cons a b => rfl
  simp only [pyFloatParse, hstrip, hsign, hlow, htk, htk2, hdropLen, hne1, hne2, hne3,
    lt_irrefl, decide_False, Bool.or_false, Bool.false_or, if_false,
    dropUnderscores_digits hd, hvd, hie, Bool.not_false, Bool.and_true, Bool.true_and,
    Bool.and_false, Bool.false_and, Bool.or_true, Bool.true_or, if_true,
    Bool.and_self, ite_false, ite_true]
  simp only [splitSign, dropUnderscores, List.filter_nil, digitsToNat, List.foldl_nil,
    Nat.cast_zero, List.length_nil, pow_zero, zero_div, add_zero]
  rfl

theorem takeWhile_append_all {p : Char → Bool} (l r : PyStr)
    (h : ∀ c ∈ l, p c = true) :
    (l ++ r).takeWhile p = l ++ r.takeWhile p := by
  induction l with
  | nil => rfl
  | cons c t ih =>
    rw [List.cons_append, List.takeWhile_cons_of_pos (h c (List.mem_cons_self c t))]
    rw [ih (fun x hx => h x (List.mem_cons_of_mem c hx)), List.cons_append]

theorem dropWhile_append_all {p : Char → Bool} (l r : PyStr)
    (h : ∀ c ∈ l, p c = true) :
    (l ++ r).dropWhile p = r.dropWhile p := by
  induction l with
  | nil => rfl
  | cons c t ih =>
    rw [List.cons_append, List.dropWhile_cons_of_pos (h c (List.mem_cons_self c t))]
    exact ih (fun x hx => h x (List.mem_cons_of_mem c hx))

/-- CPython float() on a token of digits, a dot, and more digits, yields the
exact decimal value. -/
theorem pyFloatParse_digit_dot (a b : PyStr) (hna : a ≠ []) (hnb : b ≠ [])
    (hda : a.all isDigitC = true) (hdb : b.all isDigitC = true) :
    pyFloatParse (a ++ '.' :: b) =
      some (PyFloat.finite ((digitsToNat a : ℚ) +
        (digitsToNat b : ℚ) / (10 : ℚ) ^ b.length)) := by
  have hma := List.all_eq_true.mp hda
  have hmb := List.all_eq_true.mp hdb
  have hmem : ∀ c ∈ a ++ '.' :: b, isDigitC c = true ∨ c = '.' := by
    intro c hc
    rcases List.mem_append.mp hc with h | h
    · exact Or.inl (hma c h)
    · rcases List.mem_cons.mp h with h | h
      · exact Or.inr h
      · exact Or.inl (hmb c h)
  have hstrip : pyStrip (a ++ '.' :: b) = a ++ '.' :: b := by
    refine pyStrip_of_no_space (fun c hc => ?_)
    rcases hmem c hc with h | h
    · exact digit_not_space h
    · rw [h]
      decide
  have hsign : splitSign (a ++ '.' :: b) = (false, a ++ '.' :: b) := by
    cases a with
    | nil => exact absurd rfl hna
    | cons c r =>
      have hc : isDigitC c = true := hma c (List.mem_cons_self c r)
      simp only [List.cons_append, splitSign]
      rw [if_neg (digit_ne hc (by decide)), if_neg (digit_ne hc (by decide))]
  have hlow : (a ++ '.' :: b).map pyLower = a ++ '.' :: b := by
    rw [List.map_append, map_pyLower_digits hda, List.map_cons,
      map_pyLower_digits hdb]
    rfl
  have hdotmem : '.' ∈ a ++ '.' :: b :=
    List.mem_append.mpr (Or.inr (List.mem_cons_self _ _))
  have hne1 : a ++ '.' :: b ≠ ['i', 'n', 'f'] := by
    intro h
    rw [h] at hdotmem
    exact absurd hdotmem (by decide)
  have hne2 : a ++ '.' :: b ≠ ['i', 'n', 'f', 'i', 'n', 'i', 't', 'y'] := by
    intro h
    rw [h] at hdotmem
    exact absurd hdotmem (by decide)
  have hne3 : a ++ '.' :: b ≠ ['n', 'a', 'n'] := by
    intro h
    rw [h] at hdotmem
    exact absurd hdotmem (by decide)
  have htk : (a ++ '.' :: b).takeWhile (fun c => !(c = 'e') && !(c = 'E'))
      = a ++ '.' :: b := by
    refine takeWhile_all_true _ (fun c hc => ?_)
    rcases hmem c hc with h | h
    · simp only [Bool.and_eq_true, Bool.not_eq_true', decide_eq_false_iff_not]
      exact ⟨digit_ne h (by decide), digit_ne h (by decide)⟩
    · rw [h]
      decide
  have htk2 : (a ++ '.' :: b).takeWhile (fun c => !(c = '.')) = a := by
    rw [takeWhile_append_all a _ (fun c hc => by
      simp only [Bool.not_eq_true', decide_eq_false_iff_not]
      exact digit_ne (hma c hc) (by decide))]
    rw [List.takeWhile_cons_of_neg (by decide)]
    exact List.append_nil a
  have hdrop2 : (a ++ '.' :: b).drop (a.length + 1) = b := by
    rw [← List.drop_drop, List.drop_left]
    rfl
  have hdropLen : (a ++ '.' :: b).drop ((a ++ '.' :: b).length + 1) = [] :=
    List.drop_eq_nil_of_le (by omega)
  have hvda : validDigitGroups a = true := validDigitGroups_digits hna hda
  have hvdb : validDigitGroups b = true := validDigitGroups_digits hnb hdb
  have hiea : a.isEmpty = false := by
    cases a with
    | nil => exact absurd rfl hna
    | cons x y => rfl
  simp only [pyFloatParse, hstrip, hsign, hlow, hne1, hne2, hne3, htk, htk2,
    hdrop2, hdropLen, lt_irrefl, decide_False, Bool.or_false, Bool.false_or,
    if_false, hvda, hvdb, hiea, Bool.not_false, Bool.and_true, Bool.true_and,
    Bool.or_true, Bool.true_or, if_true, ite_false, ite_true,
    dropUnderscores_digits hda, dropUnderscores_digits hdb]
  simp only [splitSign, Bool.or_self, Bool.and_self]
  rfl

theorem pyFloatParse_one_dot_five :
    pyFloatParse ['1', '.', '5'] = some (PyFloat.finite (3 / 2)) := by
  have h := pyFloatParse_digit_dot ['1'] ['5'] (by decide) (by decide)
    (by decide) (by decide)
  rw [show (['1'] : PyStr) ++ '.' :: ['5'] = ['1', '.', '5'] from rfl] at h
  rw [h, show digitsToNat ['1'] = 1 from by decide,
    show digitsToNat ['5'] = 5 from by decide]
  norm_num

/-- C10 counterexample: the two price parsers disagree already on the
numeric value of a price with a decimal comma: the search-results parser
reads 1,5 as one and a half, the webapp parser deletes the comma and reads
fifteen. -/
theorem c10_counterexample :
    (_parse_price ("1,5").data).2 ≠ (parse_price ("1,5").data).2 := by
  have hne : ("1,5").data ≠ [] := by decide
  have h1 : firstToken (searchCleanup ("1,5").data) = some ['1', '.', '5'] := by
    decide
  have h2 : firstDigitRun (webappCleanup ("1,5").data) = some ['1', '5'] := by
    decide
  simp only [_parse_price, parse_price, if_neg hne, h1, h2,
    pyFloatParse_one_dot_five]
  intro h
  have : (3 / 2 : ℚ) = ((digitsToNat ['1', '5'] : ℕ) : ℚ) :=
    PyFloat.finite.injEq _ _ |>.mp h
  rw [show digitsToNat ['1', '5'] = 15 from by decide] at this
  norm_num at this


/-- C10 (amended): the two price parsers agree, with the same exact numeric
value, on every input whose cleaned forms yield one and the same nonempty
all-digit token, as is the case for the standard listing price formats; in
general they differ (see the counterexample with a decimal comma). -/
theorem c10_parsers_agree_amended (l t : PyStr)
    (h1 : firstToken (searchCleanup l) = some t) (hne : t ≠ [])
    (hd : t.all isDigitC = true)
    (h2 : firstDigitRun (webappCleanup l) = some t) :
    (_parse_price l).2 = (parse_price l).2 := by
  have hl : l ≠ [] := by
    intro h
    subst h
    rw [show searchCleanup [] = [] from rfl] at h1
    exact Option.noConfusion h1
  simp only [_parse_price, parse_price, if_neg hl, h1, h2,
    pyFloatParse_digits t hne hd]

/-- Witness for C10 (amended) at the standard price format. -/
theorem c10_witness :
    (_parse_price ("1.234 €").data).2 = (parse_price ("1.234 €").data).2 :=
  c10_parsers_agree_amended (("1.234 €").data) ['1', '2', '3', '4']
    (by decide) (by decide) (by decide) (by decide)

/-- C4 (counterexample): on the empty input string the numeric parse cannot
succeed, yet the function returns the N/A sentinel, not the original
(empty) display text, so the claim that every failing input returns the
original text unmodified is false at the empty string. -/
theorem c4_counterexample :
    _parse_price ("").data = (("N/A").data, PyFloat.finite 0) ∧
      ("N/A").data ≠ ("").data :=
  ⟨rfl, by decide⟩

/-- C4 (amended): price parsing never raises; a typical sale price with a
dot thousands separator parses to 1234, a monthly rent with a per-month
suffix parses to 850, and every NONEMPTY input on which the numeric parse
fails is returned as the unmodified original text with a zero value (the
empty input instead yields the N/A sentinel with a zero value). -/
theorem c4_parse_price_amended :
    (_parse_price ("1.234 €").data).2 = PyFloat.finite 1234 ∧
    (_parse_price ("850 €/mes").data).2 = PyFloat.finite 850 ∧
    ∀ l : PyStr, l ≠ [] →
      (firstToken (searchCleanup l)).bind pyFloatParse = none →
      _parse_price l = (l, PyFloat.finite 0) := by
  refine ⟨?_, ?_, ?_⟩
  · have h1 : firstToken (searchCleanup ("1.234 €").data) = some ['1', '2', '3', '4'] := by
      decide
    have h2 := pyFloatParse_digits ['1', '2', '3', '4'] (by decide) (by decide)
    have hne : ("1.234 €").data ≠ [] := by decide
    simp only [_parse_price, if_neg hne, h1, h2]
    rw [show digitsToNat ['1', '2', '3', '4'] = 1234 from by decide]
    norm_num
  · have h1 : firstToken (searchCleanup ("850 €/mes").data) = some ['8', '5', '0'] := by
      decide
    have h2 := pyFloatParse_digits ['8', '5', '0'] (by decide) (by decide)
    have hne : ("850 €/mes").data ≠ [] := by decide
    simp only [_parse_price, if_neg hne, h1, h2]
    rw [show digitsToNat ['8', '5', '0'] = 850 from by decide]
    norm_num
  · intro l hl hb
    cases h : firstToken (searchCleanup l) with
    | none => simp only [_parse_price, if_neg hl, h]
    | some t =>
      rw [h, Option.some_bind] at hb
      simp only [_parse_price, if_neg hl, h, hb]

/-- Witness for C4 (amended) at a nonempty unparsable input. -/
theorem c4_witness :
    _parse_price ("abc €").data = (("abc €").data, PyFloat.finite 0) :=
  c4_parse_price_amended.2.2 (("abc €").data) (by decide) (by decide)

theorem mem_collect_not_excluded (cfg : FilterConfig) :
    ∀ arts x, x ∈ collectListings cfg arts → _should_exclude cfg x = false := by
  intro arts
  induction arts with
  | nil =>
    intro x hx
    simp only [collectListings] at hx
    exact absurd hx (List.not_mem_nil x)
  | cons a rest ih =>
    intro x hx
    cases a with
    | none =>
      simp only [collectListings] at hx
      exact ih x hx
    | some y =>
      simp only [collectListings] at hx
      by_cases h : _should_exclude cfg y = true
      · rw [if_pos h] at hx
        exact ih x hx
      · rw [if_neg h] at hx
        rcases List.mem_cons.mp hx with hxy | hx'
        · rw [hxy]
          exact Bool.eq_false_iff.mpr h
        · exact ih x hx'

/-- C6: no listing returned by the scrape filter step has a configured
excluded term as a case-insensitive substring of its title-space-description
text. -/
theorem c6_excluded_terms_filtered (cfg : FilterConfig)
    (arts : List (Option Listing)) (t : PyStr) (ht : t ∈ cfg.excludedTerms)
    (x : Listing) (hx : x ∈ (scrape_listings cfg (some arts)).1) :
    isSubstr (lowerStr t) (lowerStr (x.title ++ ' ' :: x.description)) = false := by
  simp only [scrape_listings] at hx
  have hex : _should_exclude cfg x = false := mem_collect_not_excluded cfg arts x hx
  unfold _should_exclude at hex
  simp only [Bool.or_eq_false_iff, List.any_eq_false] at hex
  have := hex.1.2 t ht
  exact Bool.eq_false_iff.mpr this

/-- Witness for C6 at a concrete configuration, term and page. -/
theorem c6_witness :
    isSubstr (lowerStr (("piso").data))
      (lowerStr (demoListing.title ++ ' ' :: demoListing.description)) = false :=
  c6_excluded_terms_filtered demoCfg [some demoListing] (("piso").data)
    (by decide) demoListing (by
      show demoListing ∈ (scrape_listings demoCfg (some [some demoListing])).1
      have h : (scrape_listings demoCfg (some [some demoListing])).1 = [demoListing] := rfl
      rw [h]
      exact List.mem_cons_self demoListing [])

theorem gatherFrom_succ (fetch : ℕ → Option (List Listing))
    (df : Option (List Listing → List Listing)) (page cnt : ℕ) :
    gatherFrom fetch df page (cnt + 1) =
      pageYield fetch df page ++ gatherFrom fetch df (page + 1) cnt := by
  unfold gatherFrom
  rw [List.range_succ_eq_map, List.map_cons, List.flatten_cons, List.map_map]
  congr 1
  congr 1
  apply List.map_congr_left
  intro k _
  simp only [Function.comp_apply]
  congr 1
  omega

theorem gatherFrom_congr (fetch fetch2 : ℕ → Option (List Listing))
    (df : Option (List Listing → List Listing)) (page cnt : ℕ)
    (h : ∀ i, page ≤ i → i < page + cnt → fetch2 i = fetch i) :
    gatherFrom fetch2 df page cnt = gatherFrom fetch df page cnt := by
  unfold gatherFrom
  congr 1
  apply List.map_congr_left
  intro k hk
  have hk2 : k < cnt := List.mem_range.mp hk
  unfold pageYield
  rw [h (page + k) (by omega) (by omega)]

theorem scrapePagesGo_all_good (fetch : ℕ → Option (List Listing))
    (df : Option (List Listing → List Listing)) (minNew : ℕ) :
    ∀ fuel page,
      (∀ i, page ≤ i → i < page + fuel →
        ∃ ls, fetch i = some ls ∧ minNew < (applyDedupe df ls).length) →
      scrapePagesGo fetch df minNew page fuel = (gatherFrom fetch df page fuel, false) := by
  intro fuel
  induction fuel with
  | zero => intro page _; rfl
  | succ n ih =>
    intro page h
    obtain ⟨ls, hfe, hlen⟩ := h page (le_refl page) (by omega)
    simp only [scrapePagesGo, hfe]
    rw [if_neg (by omega)]
    rw [ih (page + 1) (fun i h1 h2 => h i (by omega) (by omega))]
    rw [gatherFrom_succ]
    unfold pageYield
    rw [hfe]

theorem scrapePagesGo_error (fetch : ℕ → Option (List Listing))
    (df : Option (List Listing → List Listing)) (minNew : ℕ) :
    ∀ fuel page j, page ≤ j → j < page + fuel → fetch j = none →
      (∀ i, page ≤ i → i < j →
        ∃ ls, fetch i = some ls ∧ minNew < (applyDedupe df ls).length) →
      scrapePagesGo fetch df minNew page fuel =
        (gatherFrom fetch df page (j - page), true) := by
  intro fuel
  induction fuel with
  | zero => intro page j h1 h2 _ _; omega
  | succ n ih =>
    intro page j h1 h2 herr hgood
    by_cases hj : j = page
    · subst hj
      simp only [scrapePagesGo, herr, Nat.sub_self]
      rfl
    · obtain ⟨ls, hfe, hlen⟩ := hgood page (le_refl page) (by omega)
      simp only [scrapePagesGo, hfe]
      rw [if_neg (by omega)]
      rw [ih (page + 1) j (by omega) (by omega) herr
        (fun i hi1 hi2 => hgood i (by omega) hi2)]
      rw [show j - page = (j - (page + 1)) + 1 from by omega, gatherFrom_succ]
      unfold pageYield
      rw [hfe]

theorem scrapePagesGo_small (fetch : ℕ → Option (List Listing))
    (df : Option (List Listing → List Listing)) (minNew : ℕ) :
    ∀ fuel page j ls, page ≤ j → j < page + fuel → fetch j = some ls →
      (applyDedupe df ls).length ≤ minNew →
      (∀ i, page ≤ i → i < j →
        ∃ ls2, fetch i = some ls2 ∧ minNew < (applyDedupe df ls2).length) →
      scrapePagesGo fetch df minNew page fuel =
        (gatherFrom fetch df page (j - page + 1), false) := by
  intro fuel
  induction fuel with
  | zero => intro page j ls h1 h2 _ _ _; omega
  | succ n ih =>
    intro page j ls h1 h2 hfe hsmall hgood
    by_cases hj : j = page
    · subst hj
      simp only [scrapePagesGo, hfe]
      rw [if_pos hsmall]
      rw [Nat.sub_self, gatherFrom_succ]
      unfold pageYield
      rw [hfe]
      show (applyDedupe df ls, false) = (applyDedupe df ls ++ gatherFrom fetch df (j + 1) 0, false)
      rw [show gatherFrom fetch df (j + 1) 0 = [] from rfl, List.append_nil]
    · obtain ⟨ls2, hfe2, hlen2⟩ := hgood page (le_refl page) (by omega)
      simp only [scrapePagesGo, hfe2]
      rw [if_neg (by omega)]
      rw [ih (page + 1) j ls (by omega) (by omega) hfe hsmall
        (fun i hi1 hi2 => hgood i (by omega) hi2)]
      conv_rhs => rw [show j - page + 1 = (j - (page + 1) + 1) + 1 from by omega,
        gatherFrom_succ]
      rw [show pageYield fetch df page = applyDedupe df ls2 from by
        unfold pageYield; rw [hfe2]]

/-- C1: scrape_all_pages checks its stop conditions per page in order.  If
page j fails to fetch (pages before it being full), the run stops with the
listings of the earlier pages and the error flag set, and fetch outcomes
beyond page j are irrelevant.  If page j yields (after the optional dedup
callback) at most min_new_to_continue listings, the run stops normally
after accumulating page j even when max_pages is larger, with the error
flag clear, and fetch outcomes beyond page j are irrelevant.  Otherwise
all pages up to max_pages are accumulated with the error flag clear. -/
theorem c1_scrape_all_pages_stop_conditions
    (fetch fetch2 : ℕ → Option (List Listing))
    (df : Option (List Listing → List Listing)) (maxPages minNew : ℕ) :
    (∀ j, 1 ≤ j → j ≤ maxPages → fetch j = none →
      (∀ i, 1 ≤ i → i < j →
        ∃ ls, fetch i = some ls ∧ minNew < (applyDedupe df ls).length) →
      (∀ i, i ≤ j → fetch2 i = fetch i) →
      scrape_all_pages fetch df maxPages minNew =
        (gatherPages fetch df (j - 1), true) ∧
      scrape_all_pages fetch2 df maxPages minNew =
        scrape_all_pages fetch df maxPages minNew) ∧
    (∀ j ls, 1 ≤ j → j ≤ maxPages → fetch j = some ls →
      (applyDedupe df ls).length ≤ minNew →
      (∀ i, 1 ≤ i → i < j →
        ∃ ls2, fetch i = some ls2 ∧ minNew < (applyDedupe df ls2).length) →
      (∀ i, i ≤ j → fetch2 i = fetch i) →
      scrape_all_pages fetch df maxPages minNew =
        (gatherPages fetch df j, false) ∧
      scrape_all_pages fetch2 df maxPages minNew =
        scrape_all_pages fetch df maxPages minNew) ∧
    ((∀ i, 1 ≤ i → i ≤ maxPages →
        ∃ ls, fetch i = some ls ∧ minNew < (applyDedupe df ls).length) →
      scrape_all_pages fetch df maxPages minNew =
        (gatherPages fetch df maxPages, false)) := by
  refine ⟨?_, ?_, ?_⟩
  · intro j h1 h2 herr hgood hagree
    have heq : scrape_all_pages fetch df maxPages minNew =
        (gatherPages fetch df (j - 1), true) := by
      unfold scrape_all_pages gatherPages
      rw [scrapePagesGo_error fetch df minNew maxPages 1 j h1 (by omega) herr
        (fun i hi1 hi2 => hgood i hi1 hi2)]
    refine ⟨heq, ?_⟩
    have herr2 : fetch2 j = none := by rw [hagree j (le_refl j)]; exact herr
    have hgood2 : ∀ i, 1 ≤ i → i < j →
        ∃ ls, fetch2 i = some ls ∧ minNew < (applyDedupe df ls).length := by
      intro i hi1 hi2
      rw [hagree i (by omega)]
      exact hgood i hi1 hi2
    have heq2 : scrape_all_pages fetch2 df maxPages minNew =
        (gatherFrom fetch2 df 1 (j - 1), true) := by
      unfold scrape_all_pages
      exact scrapePagesGo_error fetch2 df minNew maxPages 1 j h1 (by omega) herr2 hgood2
    rw [heq2, heq]
    unfold gatherPages
    rw [gatherFrom_congr fetch fetch2 df 1 (j - 1)
      (fun i hi1 hi2 => hagree i (by omega))]
  · intro j ls h1 h2 hfe hsmall hgood hagree
    have heq : scrape_all_pages fetch df maxPages minNew =
        (gatherPages fetch df j, false) := by
      unfold scrape_all_pages gatherPages
      rw [scrapePagesGo_small fetch df minNew maxPages 1 j ls h1 (by omega) hfe
        hsmall (fun i hi1 hi2 => hgood i hi1 hi2)]
      rw [show j - 1 + 1 = j from by omega]
    refine ⟨heq, ?_⟩
    have hfe2 : fetch2 j = some ls := by rw [hagree j (le_refl j)]; exact hfe
    have hgood2 : ∀ i, 1 ≤ i → i < j →
        ∃ ls2, fetch2 i = some ls2 ∧ minNew < (applyDedupe df ls2).length := by
      intro i hi1 hi2
      rw [hagree i (by omega)]
      exact hgood i hi1 hi2
    have heq2 : scrape_all_pages fetch2 df maxPages minNew =
        (gatherFrom fetch2 df 1 (j - 1 + 1), false) := by
      unfold scrape_all_pages
      exact scrapePagesGo_small fetch2 df minNew maxPages 1 j ls h1 (by omega) hfe2
        hsmall hgood2
    rw [heq2, heq]
    unfold gatherPages
    rw [show j - 1 + 1 = j from by omega]
    rw [gatherFrom_congr fetch fetch2 df 1 j
      (fun i hi1 hi2 => hagree i (by omega))]
  · intro hgood
    unfold scrape_all_pages gatherPages
    exact scrapePagesGo_all_good fetch df minNew maxPages 1
      (fun i hi1 hi2 => hgood i hi1 (by omega))

/-- Witness for C1 at a concrete run: page 3 fails, so pages 1 and 2 are
kept and the error flag is set. -/
theorem c1_witness :
    scrape_all_pages demoFetch none 5 0 = (gatherPages demoFetch none 2, true) :=
  ((c1_scrape_all_pages_stop_conditions demoFetch demoFetch none 5 0).1 3
    (by omega) (by omega) rfl
    (fun i hi1 hi2 => by
      have h : i = 1 ∨ i = 2 := by omega
      rcases h with h | h <;>
        (subst h; exact ⟨[demoListing], rfl, by decide⟩))
    (fun i _ => rfl)).1

theorem foldl_omax_some : ∀ (l : List ℤ) (a : ℤ),
    ∃ m, l.foldl omax (some a) = some m ∧ a ≤ m := by
  intro l
  induction l with
  | nil => intro a; exact ⟨a, rfl, le_refl a⟩
  | cons y t ih =>
    intro a
    obtain ⟨m, hm, hle⟩ := ih (max a y)
    exact ⟨m, hm, le_trans (le_max_left a y) hle⟩

theorem le_foldl_omax_of_mem : ∀ (l : List ℤ) (acc : Option ℤ) (x : ℤ),
    x ∈ l → ∃ m, l.foldl omax acc = some m ∧ x ≤ m := by
  intro l
  induction l with
  | nil => intro acc x hx; exact absurd hx (List.not_mem_nil x)
  | cons y t ih =>
    intro acc x hx
    rcases List.mem_cons.mp hx with hxy | hx'
    · subst hxy
      have hacc : ∃ a, omax acc x = some a ∧ x ≤ a := by
        cases acc with
        | none => exact ⟨x, rfl, le_refl x⟩
        | some m => exact ⟨max m x, rfl, le_max_right m x⟩
      obtain ⟨a, ha, hxa⟩ := hacc
      rw [List.foldl_cons, ha]
      obtain ⟨m, hm, ham⟩ := foldl_omax_some t a
      exact ⟨m, hm, le_trans hxa ham⟩
    · rw [List.foldl_cons]
      exact ih (omax acc y) x hx'

theorem position_le_posBase (rows : List DBListing) (s : String) (r : DBListing)
    (hr : r ∈ rows) (hs : r.stage = s) : r.position ≤ posBase rows s := by
  unfold posBase maxPos
  have hmem : r.position ∈ (rows.filter (fun x => x.stage == s)).map
      (fun x => x.position) :=
    List.mem_map_of_mem _ (List.mem_filter.mpr ⟨hr, by simp [hs]⟩)
  obtain ⟨m, hm, hle⟩ := le_foldl_omax_of_mem _ none _ hmem
  rw [hm]
  exact hle

/-- C7: for a sequence of create calls all targeting the same stage with no
interleaving mutations, the assigned positions are strictly increasing in
call order, and each single create assigns exactly the current stage
maximum (0 on an empty stage) plus one. -/
theorem c7_create_positions_increasing (db : DB) (s : String)
    (ds : List ListingCreate) (hs : ∀ d ∈ ds, d.stage = s) :
    List.Chain' (· < ·) (createPositions db ds) ∧
    ∀ d : ListingCreate,
      (ListingService.create db d).1.position = posBase db.rows d.stage + 1 := by
  refine ⟨?_, fun d => rfl⟩
  suffices h : ∀ ds2 db2, (∀ d ∈ ds2, d.stage = s) →
      List.Chain' (· < ·) (createPositions db2 ds2) ∧
      (∀ p ∈ (createPositions db2 ds2).head?, posBase db2.rows s < p) by
    exact (h ds db hs).1
  intro ds2
  induction ds2 with
  | nil => intro db2 _; exact ⟨List.chain'_nil, by intro p hp; cases hp⟩
  | cons d rest ih =>
    intro db2 hst
    have hds : d.stage = s := hst d (List.mem_cons_self d rest)
    have hrest : ∀ x ∈ rest, x.stage = s :=
      fun x hx => hst x (List.mem_cons_of_mem d hx)
    obtain ⟨hchain, hhead⟩ := ih (ListingService.create db2 d).2 hrest
    have hp1 : (ListingService.create db2 d).1.position = posBase db2.rows s + 1 := by
      rw [show (ListingService.create db2 d).1.position
        = posBase db2.rows d.stage + 1 from rfl, hds]
    have hmem1 : (ListingService.create db2 d).1 ∈ (ListingService.create db2 d).2.rows := by
      rw [show (ListingService.create db2 d).2.rows
        = db2.rows ++ [(ListingService.create db2 d).1] from rfl]
      exact List.mem_append.mpr (Or.inr (List.mem_cons_self _ _))
    have hstage1 : (ListingService.create db2 d).1.stage = s := by
      rw [show (ListingService.create db2 d).1.stage = d.stage from rfl, hds]
    have hle : (ListingService.create db2 d).1.position ≤
        posBase (ListingService.create db2 d).2.rows s :=
      position_le_posBase _ s _ hmem1 hstage1
    constructor
    · show List.Chain' (· < ·)
        ((ListingService.create db2 d).1.position ::
          createPositions (ListingService.create db2 d).2 rest)
      rw [List.chain'_cons']
      refine ⟨?_, hchain⟩
      intro y hy
      have := hhead y hy
      omega
    · intro p hp
      rw [Option.mem_def,
        show createPositions db2 (d :: rest)
          = (ListingService.create db2 d).1.position ::
            createPositions (ListingService.create db2 d).2 rest from rfl,
        List.head?_cons] at hp
      have hxp := Option.some.inj hp
      rw [← hxp, hp1]
      omega

/-- Witness for C7 at two creates on an empty database. -/
theorem c7_witness :
    List.Chain' (· < ·) (createPositions (DB.mk [] 1) [demoCreate, demoCreate]) :=
  (c7_create_positions_increasing (DB.mk [] 1) "to_be_communicated"
    [demoCreate, demoCreate] (by
      intro d hd
      rcases List.mem_cons.mp hd with h | h
      · rw [h]; rfl
      · rcases List.mem_cons.mp h with h2 | h2
        · rw [h2]; rfl
        · cases h2)).1

/-- C8: update_stage on an existing listing rejects an unrecognized stage
value synchronously with the database untouched (the listing keeps its
stage and position), while a recognized stage stores exactly the
caller-supplied position rather than appending to the target stage. -/
theorem c8_update_stage_validation (db : DB) (lid : ℕ) (stage : String)
    (pos : ℤ) (r : DBListing) (hr : get_by_id db.rows lid = some r) :
    (stage ∉ STAGE_VALUES →
      ListingService.update_stage db lid stage pos =
        StageUpdateResult.invalidStage db) ∧
    (stage ∈ STAGE_VALUES →
      ListingService.update_stage db lid stage pos =
        StageUpdateResult.ok (r.withStagePos stage pos)
          (DB.mk (setRow db.rows lid (fun x => x.withStagePos stage pos))
            db.nextId) ∧
      (r.withStagePos stage pos).position = pos ∧
      (r.withStagePos stage pos).stage = stage) := by
  constructor
  · intro h
    simp only [ListingService.update_stage, hr]
    rw [if_neg h]
  · intro h
    simp only [ListingService.update_stage, hr]
    rw [if_pos h]
    exact ⟨rfl, rfl, rfl⟩

/-- Witness for C8: an unrecognized stage value is rejected and the
database is returned unchanged. -/
theorem c8_witness :
    ListingService.update_stage demoDb 7 "bogus" 5 =
      StageUpdateResult.invalidStage demoDb :=
  (c8_update_stage_validation demoDb 7 "bogus" 5 demoRow rfl).1 (by decide)

theorem setRow_preserves_other (rows : List DBListing) (j : ℕ)
    (f : DBListing → DBListing) (hf : ∀ x, (f x).id = x.id) (i : ℕ)
    (hij : i ≠ j) : get_by_id (setRow rows j f) i = get_by_id rows i := by
  induction rows with
  | nil => rfl
  | cons r t ih =>
    unfold setRow
    by_cases hr : r.id = j
    · rw [if_pos hr]
      unfold get_by_id
      rw [List.find?_cons, List.find?_cons]
      have h1 : ((f r).id == i) = false := by
        simp only [beq_eq_false_iff_ne, ne_eq, hf r, hr]
        omega
      have h2 : (r.id == i) = false := by
        simp only [beq_eq_false_iff_ne, ne_eq, hr]
        omega
      rw [h1, h2]
    · rw [if_neg hr]
      unfold get_by_id
      rw [List.find?_cons, List.find?_cons]
      cases hri : (r.id == i) with
      | true => rfl
      | false => exact ih

theorem setRow_hit (rows : List DBListing) (j : ℕ) (f : DBListing → DBListing)
    (hf : ∀ x, (f x).id = x.id) (r : DBListing)
    (hr : get_by_id rows j = some r) :
    get_by_id (setRow rows j f) j = some (f r) := by
  induction rows with
  | nil => exact Option.noConfusion hr
  | cons a t ih =>
    unfold get_by_id at hr
    rw [List.find?_cons] at hr
    unfold setRow
    by_cases ha : a.id = j
    · rw [if_pos ha]
      have hb : (a.id == j) = true := by simp [ha]
      rw [hb] at hr
      have har := Option.some.inj hr
      unfold get_by_id
      rw [List.find?_cons]
      have hfb : ((f a).id == j) = true := by simp [hf a, ha]
      rw [hfb, har]
    · rw [if_neg ha]
      have hb : (a.id == j) = false := by simp [ha]
      rw [hb] at hr
      unfold get_by_id
      rw [List.find?_cons]
      have hb2 : (a.id == j) = false := by simp [ha]
      rw [hb2]
      exact ih hr

theorem setRow_length (rows : List DBListing) (j : ℕ)
    (f : DBListing → DBListing) : (setRow rows j f).length = rows.length := by
  induction rows with
  | nil => rfl
  | cons r t ih =>
    unfold setRow
    by_cases hr : r.id = j
    · rw [if_pos hr]
      rfl
    · rw [if_neg hr]
      simp only [List.length_cons, ih]

theorem reorderStep_preserves_ne (s : String) (rows : List DBListing)
    (pc : ℕ × ℕ) (i : ℕ) (hne : pc.2 ≠ i) :
    get_by_id (reorderStep s rows pc) i = get_by_id rows i := by
  cases hfind : get_by_id rows pc.2 with
  | none => simp only [reorderStep, hfind]
  | some rb =>
    by_cases hst : rb.stage = s
    · simp only [reorderStep, hfind]
      rw [if_pos hst]
      exact setRow_preserves_other rows pc.2 (fun x => x.withPos (pc.1 : ℤ))
        (fun x => rfl) i (fun h => hne h.symm)
    · simp only [reorderStep, hfind]
      rw [if_neg hst]

theorem reorderFold_untouched (s : String) :
    ∀ (pairs : List (ℕ × ℕ)) (rows : List DBListing) (i : ℕ),
      (∀ p ∈ pairs, p.2 ≠ i) →
      get_by_id (pairs.foldl (reorderStep s) rows) i = get_by_id rows i := by
  intro pairs
  induction pairs with
  | nil => intro rows i _; rfl
  | cons pc rest ih =>
    intro rows i h
    rw [List.foldl_cons]
    rw [ih (reorderStep s rows pc) i (fun p hp => h p (List.mem_cons_of_mem pc hp))]
    exact reorderStep_preserves_ne s rows pc i (h pc (List.mem_cons_self pc rest))

theorem reorderFold_wrong_stage (s : String) :
    ∀ (pairs : List (ℕ × ℕ)) (rows : List DBListing) (i : ℕ) (r : DBListing),
      get_by_id rows i = some r → r.stage ≠ s →
      get_by_id (pairs.foldl (reorderStep s) rows) i = some r := by
  intro pairs
  induction pairs with
  | nil => intro rows i r hr _; exact hr
  | cons pc rest ih
    =>
    intro rows i r hr hst
    rw [List.foldl_cons]
    refine ih (reorderStep s rows pc) i r ?_ hst
    by_cases hne : pc.2 = i
    · subst hne
      simp only [reorderStep, hr]
      rw [if_neg hst]
      exact hr
    · rw [reorderStep_preserves_ne s rows pc i hne]
      exact hr

theorem reorderFold_hit (s : String) :
    ∀ (pairs : List (ℕ × ℕ)) (rows : List DBListing) (i : ℕ) (r : DBListing)
      (j : ℕ), get_by_id rows i = some r → r.stage = s → (j, i) ∈ pairs →
      (pairs.map Prod.snd).Nodup →
      get_by_id (pairs.foldl (reorderStep s) rows) i = some (r.withPos (j : ℤ)) := by
  intro pairs
  induction pairs with
  | nil => intro rows i r j _ _ hmem _; exact absurd hmem (List.not_mem_nil _)
  | cons pc rest ih =>
    intro rows i r j hr hst hmem hnd
    rw [List.map_cons, List.nodup_cons] at hnd
    rw [List.foldl_cons]
    by_cases hi : pc.2 = i
    · have hji : (j, i) = pc := by
        rcases List.mem_cons.mp hmem with h | h
        · exact h
        · exfalso
          apply hnd.1
          rw [hi]
          exact List.mem_map_of_mem Prod.snd h
      have hstep : reorderStep s rows pc = setRow rows i (fun x => x.withPos (j : ℤ)) := by
        simp only [reorderStep, hi, hr]
        rw [if_pos hst, show pc.1 = j from by rw [← hji]]
      rw [hstep]
      rw [reorderFold_untouched s rest _ i (fun p hp => by
        intro hpe
        apply hnd.1
        rw [hi, ← hpe]
        exact List.mem_map_of_mem Prod.snd hp)]
      exact setRow_hit rows i (fun x => x.withPos (j : ℤ)) (fun x => rfl) r hr
    · have hmem2 : (j, i) ∈ rest := by
        rcases List.mem_cons.mp hmem with h | h
        · exfalso
          apply hi
          rw [← h]
        · exact h
      refine ih (reorderStep s rows pc) i r j ?_ hst hmem2 hnd.2
      rw [reorderStep_preserves_ne s rows pc i hi]
      exact hr

theorem mem_enumFrom_get : ∀ (l : List ℕ) (n j : ℕ) (h : j < l.length),
    (n + j, l.get ⟨j, h⟩) ∈ l.enumFrom n := by
  intro l
  induction l with
  | nil => intro n j h; exact absurd h (by simp)
  | cons a t ih =>
    intro n j h
    cases j with
    | zero =>
      rw [Nat.add_zero]
      exact List.mem_cons_self _ _
    | succ k =>
      have hk : k < t.length := by
        simp only [List.length_cons] at h
        omega
      have := ih (n + 1) k hk
      rw [show n + (k + 1) = (n + 1) + k from by omega]
      exact List.mem_cons_of_mem _ this

/-- C9: reorder_column leaves every record whose current stage differs from
the given stage completely unchanged, even when its id appears in the list,
while each listed id whose record is in the given stage receives as its
position the 0-based index of that id in the (duplicate-free) id order. -/
theorem c9_reorder_frame (db : DB) (s : String) (ids : List ℕ) :
    (∀ i r, get_by_id db.rows i = some r → r.stage ≠ s →
      get_by_id (ListingService.reorder_column db s ids).rows i = some r) ∧
    (ids.Nodup →
      ∀ j (hj : j < ids.length) r,
        get_by_id db.rows (ids.get ⟨j, hj⟩) = some r → r.stage = s →
        get_by_id (ListingService.reorder_column db s ids).rows (ids.get ⟨j, hj⟩) =
          some (r.withPos (j : ℤ))) := by
  constructor
  · intro i r hr hst
    exact reorderFold_wrong_stage s ids.enum db.rows i r hr hst
  · intro hnd j hj r hr hst
    have hmem : (j, ids.get ⟨j, hj⟩) ∈ ids.enum := by
      have := mem_enumFrom_get ids 0 j hj
      rw [Nat.zero_add] at this
      exact this
    have hsnd : (ids.enum.map Prod.snd).Nodup := by
      rw [List.enum_map_snd]
      exact hnd
    exact reorderFold_hit s ids.enum db.rows (ids.get ⟨j, hj⟩) r j hr hst hmem hsnd

/-- Witness for C9: a listed id in the target stage gets position 0, a
listed id in another stage is untouched. -/
theorem c9_witness :
    get_by_id (ListingService.reorder_column demoDb "to_be_communicated"
      [5, 7]).rows 5 = some (demoRowT.withPos 0) :=
  (c9_reorder_frame demoDb "to_be_communicated" [5, 7]).2 (by decide) 0
    (by decide) demoRowT rfl rfl

/-- C2 (counterexample): the bot single-URL import flow does not update the
fields of an existing record; on a record already in to_be_communicated it
returns the record untouched, its title still differing from the freshly
parsed title, so the claim that re-importing updates the fields in place is
false for this flow. -/
theorem c2_counterexample :
    create_listing_from_url demoDb "https://h/t" (some demoParsed) =
      BotImportResult.exists_ demoRowT demoDb ∧
    demoRowT.title ≠ demoParsed.title :=
  ⟨rfl, by decide⟩

/-- C2 (code bug): re-importing a canonical URL that already has a record
never creates a second row, but neither single-URL import flow performs the
claimed in-place field update.  The bot flow leaves the record fields
untouched: it promotes the record to to_be_communicated with a fresh
max-plus-one position when its stage differs and returns it unchanged
otherwise.  The web flow cannot reach its update code at all: on every
duplicate the route reads the force attribute that its request schema does
not define and fails with an AttributeError before parsing or writing
anything, leaving the database exactly as it was. -/
theorem c2_import_no_upsert (db : DB) (u : String) (pd : ParsedListing)
    (e : DBListing) :
    (get_by_url db.rows u = some e →
      (e.stage ≠ "to_be_communicated" →
        create_listing_from_url db u (some pd) =
          BotImportResult.promoted
            (e.withStagePos "to_be_communicated"
              (posBase db.rows "to_be_communicated" + 1))
            (DB.mk (setRow db.rows e.id (fun x => x.withStagePos
              "to_be_communicated" (posBase db.rows "to_be_communicated" + 1)))
              db.nextId) ∧
        (setRow db.rows e.id (fun x => x.withStagePos "to_be_communicated"
          (posBase db.rows "to_be_communicated" + 1))).length = db.rows.length) ∧
      (e.stage = "to_be_communicated" →
        create_listing_from_url db u (some pd) =
          BotImportResult.exists_ e db)) ∧
    (get_by_url db.rows (stripRuS u) = some e →
      ∀ parsed, import_from_url db u parsed =
        WebImportResult.attributeError db) ∧
    (get_by_url db.rows (stripRuS u) = none → get_by_url db.rows u = some e →
      ∀ parsed, import_from_url db u parsed =
        WebImportResult.attributeError db) := by
  refine ⟨?_, ?_, ?_⟩
  · intro hr
    constructor
    · intro hst
      simp only [create_listing_from_url, hr]
      rw [if_pos hst]
      exact ⟨rfl, setRow_length db.rows e.id _⟩
    · intro hst
      simp only [create_listing_from_url, hr]
      rw [if_neg (by rw [hst]; exact fun h => h rfl)]
  · intro hclean parsed
    simp only [import_from_url, hclean]
  · intro hclean hurl parsed
    simp only [import_from_url, hclean, hurl]

/-- Witness for C2 at the fixture database: the bot flow promotes the
preliminary-stage row without touching its fields, and a duplicate web
reimport ends in the modeled AttributeError with the database unchanged. -/
theorem c2_witness :
    create_listing_from_url demoDb "https://h/x" (some demoParsed) =
      BotImportResult.promoted
        (demoRow.withStagePos "to_be_communicated"
          (posBase demoDb.rows "to_be_communicated" + 1))
        (DB.mk (setRow demoDb.rows demoRow.id (fun x => x.withStagePos
          "to_be_communicated" (posBase demoDb.rows "to_be_communicated" + 1)))
          demoDb.nextId) ∧
    (import_from_url demoDb "https://h/t" (some demoParsed) =
      WebImportResult.attributeError demoDb) :=
  ⟨(((c2_import_no_upsert demoDb "https://h/x" demoParsed demoRow).1 rfl).1
      (by decide)).1,
   ((c2_import_no_upsert demoDb "https://h/t" demoParsed demoRowT).2.1
      (by decide)) (some demoParsed)⟩

theorem splitOnChar_ne_nil (t : Char) : ∀ l : PyStr, splitOnChar t l ≠ [] := by
  intro l
  induction l with
  | nil => exact fun h => List.noConfusion h
  | cons c r ih =>
    simp only [splitOnChar]
    by_cases hc : c = t
    · rw [if_pos hc]
      exact fun h => List.noConfusion h
    · rw [if_neg hc]
      cases hsp : splitOnChar t r with
      | nil => exact absurd hsp ih
      | cons h0 tl0 => exact fun h => List.noConfusion h

theorem splitOnChar_append (t : Char) (y : PyStr) : ∀ x : PyStr,
    splitOnChar t (x ++ t :: y) = splitOnChar t x ++ splitOnChar t y := by
  intro x
  induction x with
  | nil =>
    simp only [List.nil_append, splitOnChar, if_pos rfl]
    rfl
  | cons c r ih =>
    by_cases hc : c = t
    · simp only [List.cons_append, splitOnChar, if_pos hc, List.append_eq, ih]
    · simp only [List.cons_append, splitOnChar, if_neg hc, List.append_eq, ih]
      cases hsp : splitOnChar t r with
      | nil => exact absurd hsp (splitOnChar_ne_nil t r)
      | cons h0 tl0 => simp only [hsp, List.cons_append]

theorem mem_split_of_mem_lines (u : PyStr) (hnl : ∀ c ∈ u, c ≠ '\n') :
    ∀ s : List PyStr, u ∈ s →
      u ∈ splitOnChar '\n' ((s.map (fun x => x ++ ['\n'])).flatten) := by
  intro s
  induction s with
  | nil => intro h; exact absurd h (List.not_mem_nil u)
  | cons v rest ih =>
    intro hu
    rw [List.map_cons, List.flatten_cons, List.append_assoc,
      show (['\n'] : PyStr) ++ (rest.map (fun x => x ++ ['\n'])).flatten
        = '\n' :: (rest.map (fun x => x ++ ['\n'])).flatten from rfl,
      splitOnChar_append]
    rcases List.mem_cons.mp hu with huv | hur
    · subst huv
      rw [splitOnChar_of_not_mem u hnl]
      exact List.mem_append.mpr (Or.inl (List.mem_cons_self u []))
    · exact List.mem_append.mpr (Or.inr (ih hur))

theorem mem_setInsert_self (s : List PyStr) (u : PyStr) : u ∈ setInsert s u := by
  unfold setInsert
  by_cases h : u ∈ s
  · rw [if_pos h]
    exact h
  · rw [if_neg h]
    exact List.mem_append.mpr (Or.inr (List.mem_cons_self u []))

theorem mem_setInsert_of_mem (s : List PyStr) (y u : PyStr) (h : u ∈ s) :
    u ∈ setInsert s y := by
  unfold setInsert
  by_cases hy : y ∈ s
  · rw [if_pos hy]
    exact h
  · rw [if_neg hy]
    exact List.mem_append.mpr (Or.inl h)

theorem mem_parseSeenLines_acc : ∀ (lines : List PyStr) (acc : List PyStr)
    (u : PyStr), u ∈ acc → u ∈ parseSeenLines acc lines := by
  intro lines
  induction lines with
  | nil => intro acc u h; exact h
  | cons line rest ih =>
    intro acc u h
    simp only [parseSeenLines]
    by_cases hl : pyStrip line = []
    · rw [if_pos hl]
      exact ih acc u h
    · rw [if_neg hl]
      exact ih _ u (mem_setInsert_of_mem acc (pyStrip line) u h)

theorem mem_parseSeenLines_line : ∀ (lines : List PyStr) (acc : List PyStr)
    (u : PyStr), u ∈ lines → pyStrip u = u → u ≠ [] →
    u ∈ parseSeenLines acc lines := by
  intro lines
  induction lines with
  | nil => intro acc u h _ _; exact absurd h (List.not_mem_nil u)
  | cons line rest ih =>
    intro acc u hu hstrip hne
    simp only [parseSeenLines]
    rcases List.mem_cons.mp hu with huv | hur
    · subst huv
      rw [if_neg (by rw [hstrip]; exact hne)]
      rw [hstrip]
      exact mem_parseSeenLines_acc rest _ u (mem_setInsert_self acc u)
    · by_cases hl : pyStrip line = []
      · rw [if_pos hl]
        exact ih acc u hur hstrip hne
      · rw [if_neg hl]
        exact ih _ u hur hstrip hne

/-- C5: the seen-set store round-trips through the durable file.  For every
URL (a nonempty string without whitespace characters), after add_seen_url a
load performed by a fresh process with an empty in-memory cache yields a
set containing the URL; and clear_seen_listings followed by a load, in the
same process or a fresh one, yields the empty set. -/
theorem c5_seen_set_roundtrip (st : SeenState) (u : PyStr) (hu1 : u ≠ [])
    (hu2 : ∀ c ∈ u, isPySpace c = false) :
    u ∈ freshLoad (add_seen_url st u) ∧
    freshLoad (clear_seen_listings st) = [] ∧
    (load_seen_listings (clear_seen_listings st)).1 = [] := by
  refine ⟨?_, rfl, rfl⟩
  have hstrip : pyStrip u = u := pyStrip_of_no_space hu2
  have hnl : ∀ c ∈ u, c ≠ '\n' := by
    intro c hc he
    have := hu2 c hc
    rw [he] at this
    exact absurd this (by decide)
  have hmem : u ∈ setInsert (load_seen_listings st).1 u :=
    mem_setInsert_self _ u
  show u ∈ freshLoad (save_seen_listings
    (SeenState.mk (some (setInsert (load_seen_listings st).1 u))
      (load_seen_listings st).2.file))
  unfold save_seen_listings freshLoad load_seen_listings parseSeenFile
  exact mem_parseSeenLines_line _ []  u
    (mem_split_of_mem_lines u hnl _ hmem) hstrip hu1

/-- Witness for C5 at a concrete URL and an empty store. -/
theorem c5_witness :
    ("https://h/1").data ∈ freshLoad (add_seen_url (SeenState.mk none none)
      (("https://h/1").data)) ∧
    freshLoad (clear_seen_listings (SeenState.mk none none)) = [] ∧
    (load_seen_listings (clear_seen_listings (SeenState.mk none none))).1 = [] :=
  c5_seen_set_roundtrip (SeenState.mk none none) (("https://h/1").data)
    (by decide) (by decide)

theorem pyLower_toNat (c : Char) :
    (pyLower c).toNat = c.toNat ∨
    (65 ≤ c.toNat ∧ c.toNat ≤ 90 ∧ (pyLower c).toNat = c.toNat + 32) := by
  unfold pyLower
  by_cases h : 65 ≤ c.toNat ∧ c.toNat ≤ 90
  · rw [if_pos (by simp [h.1, h.2])]
    refine Or.inr ⟨h.1, h.2, ?_⟩
    have hv : (c.toNat + 32).isValidChar := Or.inl (by omega)
    rw [Char.ofNat, dif_pos hv]
    rfl
  · rw [if_neg (by
      simp only [Bool.and_eq_true, decide_eq_true_eq]
      exact h)]
    exact Or.inl rfl

theorem urlSafeChar_toNat {c : Char} (h : urlSafeChar c = true) :
    32 < c.toNat ∧ c.toNat ≠ 133 ∧ c.toNat ≠ 160 := by
  simp only [urlSafeChar, isPySpace, isC0OrSpace, Bool.and_eq_true,
    Bool.not_eq_true', Bool.or_eq_false_iff, decide_eq_false_iff_not] at h
  omega

theorem urlSafeChar_of_toNat {c : Char} (h1 : 32 < c.toNat) (h2 : c.toNat ≠ 133)
    (h3 : c.toNat ≠ 160) : urlSafeChar c = true := by
  simp only [urlSafeChar, isPySpace, isC0OrSpace, Bool.and_eq_true,
    Bool.not_eq_true', Bool.or_eq_false_iff, decide_eq_false_iff_not]
  omega

theorem pyLower_safe {c : Char} (h : urlSafeChar c = true) :
    urlSafeChar (pyLower c) = true := by
  obtain ⟨h1, h2, h3⟩ := urlSafeChar_toNat h
  rcases pyLower_toNat c with he | ⟨ha, hb, he⟩ <;>
    exact urlSafeChar_of_toNat (by omega) (by omega) (by omega)

theorem char_eq_of_toNat {c d : Char} (h : c.toNat = d.toNat) : c = d := by
  apply Char.ext
  exact UInt32.toNat.inj h

theorem isSchemeChar_iff (c : Char) : isSchemeChar c = true ↔
    (65 ≤ c.toNat ∧ c.toNat ≤ 90) ∨ (97 ≤ c.toNat ∧ c.toNat ≤ 122) ∨
    (48 ≤ c.toNat ∧ c.toNat ≤ 57) ∨ c.toNat = 43 ∨ c.toNat = 45 ∨
    c.toNat = 46 := by
  simp only [isSchemeChar, isAsciiAlpha, isDigitC, Bool.or_eq_true,
    Bool.and_eq_true, decide_eq_true_eq, or_assoc]
  constructor
  · rintro (h | h | h | h | h | h)
    · exact Or.inl h
    · exact Or.inr (Or.inl h)
    · exact Or.inr (Or.inr (Or.inl h))
    · exact Or.inr (Or.inr (Or.inr (Or.inl (by rw [h]; rfl))))
    · exact Or.inr (Or.inr (Or.inr (Or.inr (Or.inl (by rw [h]; rfl)))))
    · exact Or.inr (Or.inr (Or.inr (Or.inr (Or.inr (by rw [h]; rfl)))))
  · rintro (h | h | h | h | h | h)
    · exact Or.inl h
    · exact Or.inr (Or.inl h)
    · exact Or.inr (Or.inr (Or.inl h))
    · exact Or.inr (Or.inr (Or.inr (Or.inl (char_eq_of_toNat (by rw [h]; rfl)))))
    · exact Or.inr (Or.inr (Or.inr (Or.inr (Or.inl
        (char_eq_of_toNat (by rw [h]; rfl))))))
    · exact Or.inr (Or.inr (Or.inr (Or.inr (Or.inr
        (char_eq_of_toNat (by rw [h]; rfl))))))

theorem pyLower_isSchemeChar {c : Char} (h : isSchemeChar c = true) :
    isSchemeChar (pyLower c) = true := by
  rw [isSchemeChar_iff] at h ⊢
  rcases pyLower_toNat c with he | ⟨ha, hb, he⟩ <;> rw [he] <;> omega

theorem isAsciiAlpha_iff (c : Char) : isAsciiAlpha c = true ↔
    (65 ≤ c.toNat ∧ c.toNat ≤ 90) ∨ (97 ≤ c.toNat ∧ c.toNat ≤ 122) := by
  simp only [isAsciiAlpha, Bool.or_eq_true, Bool.and_eq_true, decide_eq_true_eq]

theorem pyLower_isAsciiAlpha {c : Char} (h : isAsciiAlpha c = true) :
    isAsciiAlpha (pyLower c) = true := by
  rw [isAsciiAlpha_iff] at h ⊢
  rcases pyLower_toNat c with he | ⟨ha, hb, he⟩ <;> rw [he] <;> omega

theorem pyLower_fix {c : Char} (h : ¬(65 ≤ c.toNat ∧ c.toNat ≤ 90)) :
    pyLower c = c := by
  unfold pyLower
  rw [if_neg (by simp only [Bool.and_eq_true, decide_eq_true_eq]; exact h)]

theorem pyLower_upper {c : Char} (h : 65 ≤ c.toNat ∧ c.toNat ≤ 90) :
    (pyLower c).toNat = c.toNat + 32 := by
  unfold pyLower
  rw [if_pos (by simp [h.1, h.2])]
  have hv : (c.toNat + 32).isValidChar := Or.inl (by omega)
  rw [Char.ofNat, dif_pos hv]
  rfl

theorem pyLower_idem (c : Char) : pyLower (pyLower c) = pyLower c := by
  by_cases h : 65 ≤ c.toNat ∧ c.toNat ≤ 90
  · have he := pyLower_upper h
    apply pyLower_fix
    rw [he]
    omega
  · rw [pyLower_fix h, pyLower_fix h]

theorem twMem {p : Char → Bool} : ∀ (l : PyStr) (c : Char),
    c ∈ l.takeWhile p → p c = true := by
  intro l
  induction l with
  | nil => intro c h; exact absurd h (List.not_mem_nil c)
  | cons a t ih =>
    intro c h
    by_cases ha : p a = true
    · rw [List.takeWhile_cons_of_pos ha] at h
      rcases List.mem_cons.mp h with hc | hc
      · rw [hc]; exact ha
      · exact ih c hc
    · rw [List.takeWhile_cons_of_neg ha] at h
      exact absurd h (List.not_mem_nil c)

theorem twSub {p : Char → Bool} : ∀ (l : PyStr) (c : Char),
    c ∈ l.takeWhile p → c ∈ l := by
  intro l
  induction l with
  | nil => intro c h; exact h
  | cons a t ih =>
    intro c h
    by_cases ha : p a = true
    · rw [List.takeWhile_cons_of_pos ha] at h
      rcases List.mem_cons.mp h with hc | hc
      · rw [hc]; exact List.mem_cons_self a t
      · exact List.mem_cons_of_mem a (ih c hc)
    · rw [List.takeWhile_cons_of_neg ha] at h
      exact absurd h (List.not_mem_nil c)

theorem dwSub {p : Char → Bool} : ∀ (l : PyStr) (c : Char),
    c ∈ l.dropWhile p → c ∈ l := by
  intro l
  induction l with
  | nil => intro c h; exact h
  | cons a t ih =>
    intro c h
    by_cases ha : p a = true
    · rw [List.dropWhile_cons_of_pos ha] at h
      exact List.mem_cons_of_mem a (ih c h)
    · rw [List.dropWhile_cons_of_neg ha] at h
      exact h

theorem dropSub : ∀ (n : ℕ) (l : PyStr) (c : Char), c ∈ l.drop n → c ∈ l := by
  intro n l c h
  exact List.mem_of_mem_drop h

theorem dwHead {p : Char → Bool} : ∀ (l : PyStr) (c : Char) (r : PyStr),
    l.dropWhile p = c :: r → p c = false := by
  intro l
  induction l with
  | nil => intro c r h; exact List.noConfusion h
  | cons a t ih =>
    intro c r h
    by_cases ha : p a = true
    · rw [List.dropWhile_cons_of_pos ha] at h
      exact ih c r h
    · rw [List.dropWhile_cons_of_neg ha] at h
      have := (List.cons.injEq a t c r).mp h
      rw [← this.1]
      exact Bool.eq_false_iff.mpr ha

theorem twStopAppend {q : Char → Bool} : ∀ (p t : PyStr) (c : Char),
    c ∈ p → q c = false → (p ++ t).takeWhile q = p.takeWhile q := by
  intro p
  induction p with
  | nil => intro t c h _; exact absurd h (List.not_mem_nil c)
  | cons a r ih =>
    intro t c h hq
    by_cases ha : q a = true
    · rw [List.cons_append, List.takeWhile_cons_of_pos ha,
        List.takeWhile_cons_of_pos ha]
      rcases List.mem_cons.mp h with hc | hc
      · exfalso
        rw [← hc] at ha
        rw [hq] at ha
        exact Bool.noConfusion ha
      · rw [ih t c hc hq]
    · rw [List.cons_append, List.takeWhile_cons_of_neg ha,
        List.takeWhile_cons_of_neg ha]

theorem twLtLength {q : Char → Bool} : ∀ (w : PyStr) (c : Char),
    c ∈ w → q c = false → (w.takeWhile q).length < w.length := by
  intro w
  induction w with
  | nil => intro c h _; exact absurd h (List.not_mem_nil c)
  | cons a t ih =>
    intro c h hq
    by_cases ha : q a = true
    · rw [List.takeWhile_cons_of_pos ha]
      rcases List.mem_cons.mp h with hc | hc
      · exfalso
        rw [← hc] at ha
        rw [hq] at ha
        exact Bool.noConfusion ha
      · simp only [List.length_cons]
        exact Nat.succ_lt_succ (ih c hc hq)
    · rw [List.takeWhile_cons_of_neg ha]
      simp only [List.length_nil, List.length_cons]
      omega

theorem take2_shape (p : PyStr) (h : p.take 2 = ['/', '/']) :
    ∃ r, p = '/' :: '/' :: r := by
  cases p with
  | nil => exact absurd h (by decide)
  | cons a t =>
    cases t with
    | nil =>
      exfalso
      simp only [List.take_succ_cons, List.take_nil] at h
      exact List.noConfusion (((List.cons.injEq a [] '/' ['/']).mp h).2)
    | cons b r =>
      simp only [List.take_succ_cons, List.take_zero] at h
      simp only [List.cons.injEq, and_true] at h
      exact ⟨r, by rw [h.1, h.2]⟩

theorem take1_shape (p : PyStr) (h : p.take 1 = ['/']) : ∃ r, p = '/' :: r := by
  cases p with
  | nil => exact absurd h (by decide)
  | cons a t =>
    simp only [List.take_succ_cons, List.take_zero] at h
    simp only [List.cons.injEq, and_true] at h
    exact ⟨t, by rw [h]⟩

theorem dwAllTrue {p : Char → Bool} : ∀ l : PyStr, (∀ c ∈ l, p c = true) →
    l.dropWhile p = [] := by
  intro l
  induction l with
  | nil => intro _; rfl
  | cons a t ih =>
    intro h
    rw [List.dropWhile_cons_of_pos (h a (List.mem_cons_self a t))]
    exact ih (fun c hc => h c (List.mem_cons_of_mem a hc))

theorem schemeChar_ne_colon {c : Char} (h : isSchemeChar c = true) : ¬ c = ':' := by
  intro he
  rw [isSchemeChar_iff] at h
  rw [he] at h
  revert h
  decide

theorem splitScheme_scheme (s r : PyStr) (hhead : headAlpha s = true)
    (hall : s.all isSchemeChar = true) (hlow : s.map pyLower = s) :
    splitScheme (s ++ ':' :: r) = (s, r) := by
  have hsne : s ≠ [] := by
    intro h
    rw [h] at hhead
    exact Bool.noConfusion hhead
  have hmem : ∀ c ∈ s, (fun c => !(c = ':')) c = true := by
    intro c hc
    simp only [Bool.not_eq_true', decide_eq_false_iff_not]
    exact schemeChar_ne_colon (List.all_eq_true.mp hall c hc)
  have hpre : (s ++ ':' :: r).takeWhile (fun c => !(c = ':')) = s := by
    rw [takeWhile_append_all s _ hmem, List.takeWhile_cons_of_neg (by decide)]
    exact List.append_nil s
  have hcond : schemeCondition (s ++ ':' :: r) = true := by
    unfold schemeCondition
    rw [hpre]
    have hlt : s.length < (s ++ ':' :: r).length := by
      rw [List.length_append, List.length_cons]
      omega
    simp [hlt, hsne, hhead, hall, List.isEmpty_iff]
  unfold splitScheme
  rw [if_pos hcond, hpre, hlow]
  rw [← List.drop_drop, List.drop_left]
  rfl

theorem splitScheme_none (l : PyStr) (hc : schemeCondition l = false) :
    splitScheme l = ([], l) := by
  unfold splitScheme
  rw [if_neg (by rw [hc]; exact Bool.noConfusion)]

theorem schemeCondition_head_not_alpha (c : Char) (rest : PyStr)
    (hc : isAsciiAlpha c = false) (hcol : ¬ c = ':') :
    schemeCondition (c :: rest) = false := by
  unfold schemeCondition
  rw [List.takeWhile_cons_of_pos (by simp [hcol])]
  simp [headAlpha, hc]

theorem schemeCondition_head_colon (rest : PyStr) :
    schemeCondition (':' :: rest) = false := by
  unfold schemeCondition
  rw [List.takeWhile_cons_of_neg (by decide)]
  simp

theorem schemeCondition_no_colon (l : PyStr) (h : ∀ c ∈ l, ¬ c = ':') :
    schemeCondition l = false := by
  unfold schemeCondition
  rw [takeWhile_all_true l (fun c hc => by
    simp only [Bool.not_eq_true', decide_eq_false_iff_not]
    exact h c hc)]
  simp

theorem schemeCondition_bad_pre (l : PyStr)
    (h : (headAlpha (l.takeWhile (fun c => !(c = ':'))) &&
      (l.takeWhile (fun c => !(c = ':'))).all isSchemeChar) = false) :
    schemeCondition l = false := by
  unfold schemeCondition
  rw [Bool.and_eq_false_iff] at h
  rcases h with h | h
  · simp [h]
  · simp [h]

theorem splitNetloc_some (r : PyStr) :
    splitNetloc ('/' :: '/' :: r) =
      (r.takeWhile notNetlocDelim, r.dropWhile notNetlocDelim) := by
  unfold splitNetloc
  rw [if_pos (by simp [List.take_succ_cons])]
  rfl

theorem splitNetloc_none (l : PyStr) (h : ¬ l.take 2 = ['/', '/']) :
    splitNetloc l = ([], l) := by
  unfold splitNetloc
  rw [if_neg h]

theorem split_at_char_append (t : Char) (m f : PyStr) (hm : ∀ c ∈ m, ¬ c = t) :
    ((m ++ t :: f).takeWhile (fun c => !(c = t)),
      ((m ++ t :: f).dropWhile (fun c => !(c = t))).drop 1) = (m, f) := by
  have hmem : ∀ c ∈ m, (fun c => !(c = t)) c = true := by
    intro c hc
    simp only [Bool.not_eq_true', decide_eq_false_iff_not]
    exact hm c hc
  rw [takeWhile_append_all m _ hmem, dropWhile_append_all m _ hmem]
  rw [List.takeWhile_cons_of_neg (by simp), List.dropWhile_cons_of_neg (by simp)]
  rw [List.append_nil]
  rfl

theorem split_at_char_none (t : Char) (m : PyStr) (hm : ∀ c ∈ m, ¬ c = t) :
    (m.takeWhile (fun c => !(c = t)),
      (m.dropWhile (fun c => !(c = t))).drop 1) = (m, []) := by
  have hmem : ∀ c ∈ m, (fun c => !(c = t)) c = true := by
    intro c hc
    simp only [Bool.not_eq_true', decide_eq_false_iff_not]
    exact hm c hc
  rw [takeWhile_all_true m hmem, dwAllTrue m hmem]
  rfl

theorem urlunsplit_shape_netloc (s n p q f : PyStr) (pr : PyStr)
    (hpeq : p = '/' :: pr) (hb : ¬ n.isEmpty = true ∨ p.take 2 = ['/', '/']) :
    urlunsplit (UrlParts.mk s n p q f) =
      (if !s.isEmpty then s ++ ':' :: ('/' :: '/' :: (n ++ p))
        else '/' :: '/' :: (n ++ p)) ++
      (if !q.isEmpty then '?' :: q else []) ++
      (if !f.isEmpty then '#' :: f else []) := by
  have htake1 : p.take 1 = ['/'] := by rw [hpeq]; rfl
  have hcond : (!n.isEmpty || decide (p.take 2 = ['/', '/'])) = true := by
    rcases hb with h | h
    · simp [Bool.not_eq_true] at h ⊢
      simp [h]
    · simp [h]
  have hins : (!p.isEmpty && !(decide (p.take 1 = ['/']))) = false := by
    simp [htake1]
  unfold urlunsplit
  simp only [hcond, hins, if_true, if_false, ite_true, ite_false,
    Bool.false_eq_true]
  by_cases hsc : s.isEmpty <;> by_cases hqc : q.isEmpty <;>
    by_cases hfc : f.isEmpty <;>
    simp [hsc, hqc, hfc, List.append_assoc]

theorem urlunsplit_shape_plain (s p q f : PyStr) (hb : ¬ p.take 2 = ['/', '/']) :
    urlunsplit (UrlParts.mk s [] p q f) =
      (if !s.isEmpty then s ++ ':' :: p else p) ++
      (if !q.isEmpty then '?' :: q else []) ++
      (if !f.isEmpty then '#' :: f else []) := by
  have hcond : (!(List.isEmpty ([] : PyStr)) || decide (p.take 2 = ['/', '/'])) = false := by
    simp [hb]
  unfold urlunsplit
  simp only [hcond, if_false, ite_false, Bool.false_eq_true]
  by_cases hsc : s.isEmpty <;> by_cases hqc : q.isEmpty <;>
    by_cases hfc : f.isEmpty <;>
    simp [hsc, hqc, hfc, List.append_assoc]

theorem splitTail (m q f : PyStr) (hmh : ∀ c ∈ m, ¬ c = '#')
    (hmq : ∀ c ∈ m, ¬ c = '?') (hqh : ∀ c ∈ q, ¬ c = '#') :
    splitFragment (m ++ (if !q.isEmpty then '?' :: q else []) ++
        (if !f.isEmpty then '#' :: f else [])) =
      (m ++ (if !q.isEmpty then '?' :: q else []), f) ∧
    splitQuery (m ++ (if !q.isEmpty then '?' :: q else [])) = (m, q) := by
  have hm2h : ∀ c ∈ m ++ (if !q.isEmpty then '?' :: q else []), ¬ c = '#' := by
    intro c hc
    rcases List.mem_append.mp hc with h | h
    · exact hmh c h
    · by_cases hqc : q.isEmpty
      · have hq0 : q = [] := List.isEmpty_iff.mp hqc
        subst hq0
        simp only [List.isEmpty_nil, Bool.not_true, Bool.false_eq_true,
          if_false, ite_false] at h
        exact absurd h (List.not_mem_nil c)
      · simp only [hqc, Bool.not_false, if_true, ite_true] at h
        rcases List.mem_cons.mp h with h2 | h2
        · rw [h2]; decide
        · exact hqh c h2
  constructor
  · by_cases hfc : f.isEmpty
    · have hf : f = [] := List.isEmpty_iff.mp hfc
      subst hf
      simp only [List.isEmpty_nil, Bool.not_true, if_false, ite_false,
        List.append_nil, Bool.false_eq_true]
      unfold splitFragment
      exact split_at_char_none '#' _ hm2h
    · simp only [hfc, Bool.not_false, if_true, ite_true]
      unfold splitFragment
      exact split_at_char_append '#' _ f hm2h
  · by_cases hqc : q.isEmpty
    · have hq : q = [] := List.isEmpty_iff.mp hqc
      subst hq
      simp only [List.isEmpty_nil, Bool.not_true, if_false, ite_false,
        List.append_nil, Bool.false_eq_true]
      unfold splitQuery
      exact split_at_char_none '?' _ hmq
    · simp only [hqc, Bool.not_false, if_true, ite_true]
      unfold splitQuery
      exact split_at_char_append '?' _ q hmq

theorem all_false_of_mem {p : Char → Bool} {l : PyStr} {c : Char} (hc : c ∈ l)
    (hf : p c = false) : l.all p = false := by
  rw [Bool.eq_false_iff]
  intro hall
  have := List.all_eq_true.mp hall c hc
  rw [hf] at this
  exact Bool.noConfusion this

theorem tqf_shape (q f : PyStr) :
    ((if !q.isEmpty then '?' :: q else []) ++
      (if !f.isEmpty then '#' :: f else []) = ([] : PyStr)) ∨
    (∃ h0 rest, (if !q.isEmpty then '?' :: q else []) ++
      (if !f.isEmpty then '#' :: f else []) = h0 :: rest ∧
      (h0 = '?' ∨ h0 = '#')) := by
  by_cases hqc : q.isEmpty
  · have hq0 := List.isEmpty_iff.mp hqc
    subst hq0
    by_cases hfc : f.isEmpty
    · have hf0 := List.isEmpty_iff.mp hfc
      subst hf0
      left
      rfl
    · right
      refine ⟨'#', f, ?_, Or.inr rfl⟩
      simp [hfc]
  · right
    refine ⟨'?', q ++ (if !f.isEmpty then '#' :: f else []), ?_, Or.inl rfl⟩
    simp [hqc]

theorem schemeSafeB_cases (c : Char) (pr : PyStr)
    (h : schemeSafeB (c :: pr) = true) :
    c = '/' ∨ c = ':' ∨ (':' ∉ (c :: pr)) ∨
    (headAlpha ((c :: pr).takeWhile (fun x => !(x = ':'))) &&
      ((c :: pr).takeWhile (fun x => !(x = ':'))).all isSchemeChar) = false := by
  have hOr : ∀ a b : Bool, (a || b) = true → a = true ∨ b = true := by
    intro a b hab
    cases a
    · right
      simpa using hab
    · left
      rfl
  have hNot : ∀ a : Bool, (!a) = true → a = false := by
    intro a ha
    cases a
    · rfl
    · exact Bool.noConfusion ha
  have h2 : (decide ((c :: pr).take 1 = ['/']) || decide ((c :: pr).take 1 = [':']) ||
      !(decide (':' ∈ (c :: pr))) ||
      !(headAlpha ((c :: pr).takeWhile (fun x => !(x = ':'))) &&
        ((c :: pr).takeWhile (fun x => !(x = ':'))).all isSchemeChar)) = true := by
    unfold schemeSafeB at h
    exact h
  have htk : (c :: pr).take 1 = [c] := by
    simp [List.take_succ_cons]
  rcases hOr _ _ h2 with h123 | h5
  · rcases hOr _ _ h123 with h12 | h4
    · rcases hOr _ _ h12 with h1 | h1
      · refine Or.inl ?_
        have := of_decide_eq_true h1
        rw [htk] at this
        exact ((List.cons.injEq c [] '/' []).mp this).1
      · refine Or.inr (Or.inl ?_)
        have := of_decide_eq_true h1
        rw [htk] at this
        exact ((List.cons.injEq c [] ':' []).mp this).1
    · exact Or.inr (Or.inr (Or.inl (of_decide_eq_false (hNot _ h4))))
  · exact Or.inr (Or.inr (Or.inr (hNot _ h5)))

theorem schemeCondition_safe_tail (p q f : PyStr) (hp0 : p ≠ [])
    (hsafe : schemeSafeB p = true) :
    schemeCondition (p ++ (if !q.isEmpty then '?' :: q else []) ++
      (if !f.isEmpty then '#' :: f else [])) = false := by
  rw [List.append_assoc]
  rcases tqf_shape q f with htq | ⟨h0, rest, htq, hh0⟩
  · rw [htq, List.append_nil]
    cases p with
    | nil => exact absurd rfl hp0
    | cons c pr =>
      rcases schemeSafeB_cases c pr hsafe with h | h | h | h
      · subst h
        exact schemeCondition_head_not_alpha '/' pr (by decide) (by decide)
      · subst h
        exact schemeCondition_head_colon pr
      · exact schemeCondition_no_colon (c :: pr) (fun x hx he => h (he ▸ hx))
      · exact schemeCondition_bad_pre (c :: pr) h
  · rw [htq]
    by_cases hcol : ':' ∈ p
    · cases p with
      | nil => exact absurd rfl hp0
      | cons c pr =>
        rcases schemeSafeB_cases c pr hsafe with h | h | h | h
        · subst h
          rw [List.cons_append]
          exact schemeCondition_head_not_alpha '/' _ (by decide) (by decide)
        · subst h
          rw [List.cons_append]
          exact schemeCondition_head_colon _
        · exact absurd hcol h
        · apply schemeCondition_bad_pre
          rw [twStopAppend (c :: pr) (h0 :: rest) ':' hcol (by simp)]
          exact h
    · apply schemeCondition_bad_pre
      have hpmem : ∀ c ∈ p, (fun x => !(x = ':')) c = true := by
        intro c hc
        simp only [Bool.not_eq_true', decide_eq_false_iff_not]
        intro he
        exact hcol (he ▸ hc)
      rw [takeWhile_append_all p _ hpmem]
      have hh0ne : (fun x => !(x = ':')) h0 = true := by
        rcases hh0 with h | h <;> (subst h; decide)
      rw [show List.takeWhile (fun x => !(x = ':')) (h0 :: rest)
          = h0 :: List.takeWhile (fun x => !(x = ':')) rest from
        List.takeWhile_cons_of_pos hh0ne]
      have hmem : h0 ∈ p ++ h0 :: (rest.takeWhile (fun x => !(x = ':'))) :=
        List.mem_append.mpr (Or.inr (List.mem_cons_self _ _))
      have hbad : isSchemeChar h0 = false := by
        rcases hh0 with h | h <;> (subst h; decide)
      rw [all_false_of_mem hmem hbad]
      simp

theorem assoc_colon (s p t1 t2 : PyStr) :
    ((s ++ ':' :: p) ++ t1) ++ t2 = s ++ ':' :: ((p ++ t1) ++ t2) := by
  simp [List.append_assoc]

theorem cons2_append (a b : Char) (X A B : PyStr) :
    ((a :: b :: X) ++ A) ++ B = a :: b :: ((X ++ A) ++ B) := by
  simp [List.append_assoc]

theorem splitPure_unsplit (s n p q f : PyStr)
    (hs : s = [] ∨ (headAlpha s = true ∧ s.all isSchemeChar = true ∧
      s.map pyLower = s))
    (hn : n.all notNetlocDelim = true)
    (hp0 : p ≠ [])
    (hph : ∀ c ∈ p, ¬ c = '#')
    (hpq2 : ∀ c ∈ p, ¬ c = '?')
    (hnp : n ≠ [] → ∃ pr, p = '/' :: pr)
    (hqh : ∀ c ∈ q, ¬ c = '#')
    (hss : s = [] → n = [] → ¬(p.take 2 = ['/', '/']) → schemeSafeB p = true) :
    splitPure (urlunsplit (UrlParts.mk s n p q f)) = UrlParts.mk s n p q f := by
  obtain ⟨hfrag, hquery⟩ := splitTail p q f hph hpq2 hqh
  by_cases hb : n = [] ∧ ¬ p.take 2 = ['/', '/']
  · obtain ⟨hn0, hb2⟩ := hb
    subst hn0
    rw [urlunsplit_shape_plain s p q f hb2]
    have hnl : splitNetloc ((p ++ (if !q.isEmpty then '?' :: q else [])) ++
        (if !f.isEmpty then '#' :: f else [])) =
        ([], (p ++ (if !q.isEmpty then '?' :: q else [])) ++
          (if !f.isEmpty then '#' :: f else [])) := by
      apply splitNetloc_none
      intro hcontra
      cases p with
      | nil => exact absurd rfl hp0
      | cons a t =>
        cases t with
        | cons b r =>
          apply hb2
          rw [List.cons_append, List.cons_append, List.cons_append,
            List.cons_append] at hcontra
          simp only [List.take_succ_cons, List.take_zero, List.cons.injEq,
            and_true] at hcontra ⊢
          exact hcontra
        | nil =>
          rcases tqf_shape q f with htq | ⟨h0, rest, htq, hh0⟩
          · rw [List.append_assoc, htq, List.append_nil] at hcontra
            simp only [List.take_succ_cons, List.take_nil] at hcontra
            exact List.noConfusion (((List.cons.injEq a [] '/' ['/']).mp hcontra).2)
          · rw [List.append_assoc, htq] at hcontra
            rcases hh0 with h | h <;> (subst h; simp at hcontra)
    rcases hs with hs0 | ⟨hhead, hall, hlow⟩
    · subst hs0
      rw [show (if !(List.isEmpty ([] : PyStr)) then
          ([] : PyStr) ++ ':' :: p else p) = p from by simp]
      have hcond := schemeCondition_safe_tail p q f hp0 (hss rfl rfl hb2)
      unfold splitPure
      simp only [splitScheme_none _ hcond, hnl, hfrag, hquery]
    · have hsne : s ≠ [] := by
        intro h
        rw [h] at hhead
        exact Bool.noConfusion hhead
      rw [show (if !s.isEmpty then s ++ ':' :: p else p) = s ++ ':' :: p from by
        simp [List.isEmpty_iff, hsne]]
      rw [assoc_colon]
      unfold splitPure
      simp only [splitScheme_scheme s _ hhead hall hlow, hnl, hfrag, hquery]
  · have hb2 : ¬ n.isEmpty = true ∨ p.take 2 = ['/', '/'] := by
      by_cases hn0 : n = []
      · right
        by_contra hcontra
        exact hb ⟨hn0, hcontra⟩
      · left
        simp [List.isEmpty_iff, hn0]
    have hpr : ∃ pr, p = '/' :: pr := by
      rcases hb2 with h | h
      · apply hnp
        intro h0
        rw [h0] at h
        simp at h
      · obtain ⟨r, hr⟩ := take2_shape p h
        exact ⟨'/' :: r, hr⟩
    obtain ⟨pr, hpeq⟩ := hpr
    rw [urlunsplit_shape_netloc s n p q f pr hpeq hb2]
    have hnn : splitNetloc ('/' :: '/' :: (((n ++ p) ++
        (if !q.isEmpty then '?' :: q else [])) ++
        (if !f.isEmpty then '#' :: f else []))) =
        (n, (p ++ (if !q.isEmpty then '?' :: q else [])) ++
          (if !f.isEmpty then '#' :: f else [])) := by
      rw [splitNetloc_some]
      have hshape : (((n ++ p) ++ (if !q.isEmpty then '?' :: q else [])) ++
          (if !f.isEmpty then '#' :: f else [])) =
          n ++ ((p ++ (if !q.isEmpty then '?' :: q else [])) ++
            (if !f.isEmpty then '#' :: f else [])) := by
        simp [List.append_assoc]
      rw [hshape]
      have hhd : ∃ rest2, (p ++ (if !q.isEmpty then '?' :: q else [])) ++
          (if !f.isEmpty then '#' :: f else []) = '/' :: rest2 := by
        refine ⟨((pr ++ (if !q.isEmpty then '?' :: q else [])) ++
          (if !f.isEmpty then '#' :: f else [])), ?_⟩
        rw [hpeq, List.cons_append, List.cons_append]
      obtain ⟨rest2, hrest2⟩ := hhd
      rw [takeWhile_append_all n _ (fun c hc => List.all_eq_true.mp hn c hc),
        dropWhile_append_all n _ (fun c hc => List.all_eq_true.mp hn c hc)]
      rw [hrest2, List.takeWhile_cons_of_neg (by decide),
        List.dropWhile_cons_of_neg (by decide), List.append_nil]
    rcases hs with hs0 | ⟨hhead, hall, hlow⟩
    · subst hs0
      rw [show (if !(List.isEmpty ([] : PyStr)) then
          ([] : PyStr) ++ ':' :: ('/' :: '/' :: (n ++ p))
          else '/' :: '/' :: (n ++ p)) = '/' :: '/' :: (n ++ p) from by simp]
      rw [cons2_append]
      have hcond : schemeCondition ('/' :: '/' :: (((n ++ p) ++
          (if !q.isEmpty then '?' :: q else [])) ++
          (if !f.isEmpty then '#' :: f else []))) = false :=
        schemeCondition_head_not_alpha '/' _ (by decide) (by decide)
      unfold splitPure
      simp only [splitScheme_none _ hcond, hnn, hfrag, hquery]
    · have hsne : s ≠ [] := by
        intro h
        rw [h] at hhead
        exact Bool.noConfusion hhead
      rw [show (if !s.isEmpty then s ++ ':' :: ('/' :: '/' :: (n ++ p))
          else '/' :: '/' :: (n ++ p)) = s ++ ':' :: ('/' :: '/' :: (n ++ p)) from by
        simp [List.isEmpty_iff, hsne]]
      rw [assoc_colon]
      rw [show ((('/' :: '/' :: (n ++ p)) ++ (if !q.isEmpty then '?' :: q else [])) ++
          (if !f.isEmpty then '#' :: f else [])) = '/' :: '/' :: (((n ++ p) ++
          (if !q.isEmpty then '?' :: q else [])) ++
          (if !f.isEmpty then '#' :: f else [])) from cons2_append '/' '/' _ _ _]
      unfold splitPure
      simp only [splitScheme_scheme s _ hhead hall hlow, hnn, hfrag, hquery]

set_option maxHeartbeats 1600000 in
theorem mem_urlunsplit (u : UrlParts) (c : Char) (hc : c ∈ urlunsplit u) :
    c ∈ u.scheme ∨ c ∈ u.netloc ∨ c ∈ u.path ∨ c ∈ u.query ∨ c ∈ u.fragment ∨
    c = ':' ∨ c = '/' ∨ c = '?' ∨ c = '#' := by
  simp only [urlunsplit] at hc
  split at hc <;> split at hc <;> split at hc <;> split at hc <;>
    (try split at hc) <;>
    ((try simp only [List.mem_append, List.mem_cons, List.not_mem_nil, or_false,
      false_or] at hc); tauto)

theorem splitScheme_sub (w : PyStr) :
    (∀ c ∈ (splitScheme w).1, ∃ d ∈ w, c = pyLower d) ∧
    (∀ c ∈ (splitScheme w).2, c ∈ w) := by
  unfold splitScheme
  by_cases hc : schemeCondition w = true
  · rw [if_pos hc]
    constructor
    · intro c hmem
      obtain ⟨d, hd, hde⟩ := List.mem_map.mp hmem
      exact ⟨d, twSub w d hd, hde.symm⟩
    · intro c hmem
      exact dropSub _ w c hmem
  · rw [if_neg hc]
    exact ⟨fun c hmem => absurd hmem (List.not_mem_nil c), fun c hmem => hmem⟩

theorem splitNetloc_sub (w : PyStr) :
    (∀ c ∈ (splitNetloc w).1, c ∈ w) ∧ (∀ c ∈ (splitNetloc w).2, c ∈ w) := by
  unfold splitNetloc
  by_cases hc : w.take 2 = ['/', '/']
  · rw [if_pos hc]
    exact ⟨fun c hmem => dropSub 2 w c (twSub _ c hmem),
      fun c hmem => dropSub 2 w c (dwSub _ c hmem)⟩
  · rw [if_neg hc]
    exact ⟨fun c hmem => absurd hmem (List.not_mem_nil c), fun c hmem => hmem⟩

theorem splitFragment_sub (w : PyStr) :
    (∀ c ∈ (splitFragment w).1, c ∈ w) ∧ (∀ c ∈ (splitFragment w).2, c ∈ w) := by
  unfold splitFragment
  exact ⟨fun c hmem => twSub w c hmem,
    fun c hmem => dwSub w c (dropSub 1 _ c hmem)⟩

theorem splitQuery_sub (w : PyStr) :
    (∀ c ∈ (splitQuery w).1, c ∈ w) ∧ (∀ c ∈ (splitQuery w).2, c ∈ w) := by
  unfold splitQuery
  exact ⟨fun c hmem => twSub w c hmem,
    fun c hmem => dwSub w c (dropSub 1 _ c hmem)⟩

theorem splitPure_sub (w : PyStr) :
    (∀ c ∈ (splitPure w).scheme, ∃ d ∈ w, c = pyLower d) ∧
    (∀ c ∈ (splitPure w).netloc, c ∈ w) ∧
    (∀ c ∈ (splitPure w).path, c ∈ w) ∧
    (∀ c ∈ (splitPure w).query, c ∈ w) ∧
    (∀ c ∈ (splitPure w).fragment, c ∈ w) := by
  refine ⟨fun c hc => (splitScheme_sub w).1 c hc,
    fun c hc => (splitScheme_sub w).2 _ ((splitNetloc_sub _).1 c hc),
    fun c hc => (splitScheme_sub w).2 _ ((splitNetloc_sub _).2 _
      ((splitFragment_sub _).1 _ ((splitQuery_sub _).1 c hc))),
    fun c hc => (splitScheme_sub w).2 _ ((splitNetloc_sub _).2 _
      ((splitFragment_sub _).1 _ ((splitQuery_sub _).2 c hc))),
    fun c hc => (splitScheme_sub w).2 _ ((splitNetloc_sub _).2 _
      ((splitFragment_sub _).2 c hc))⟩

theorem schemeCondition_parts (w : PyStr) (h : schemeCondition w = true) :
    (w.takeWhile (fun c => !(c = ':'))) ≠ [] ∧
    headAlpha (w.takeWhile (fun c => !(c = ':'))) = true ∧
    (w.takeWhile (fun c => !(c = ':'))).all isSchemeChar = true := by
  simp only [schemeCondition, Bool.and_eq_true] at h
  obtain ⟨⟨⟨_, hne⟩, hhead⟩, hall⟩ := h
  refine ⟨?_, hhead, hall⟩
  intro he
  rw [he] at hne
  simp at hne

theorem splitScheme_wf (w : PyStr) :
    (splitScheme w).1 = [] ∨
    (headAlpha (splitScheme w).1 = true ∧
      (splitScheme w).1.all isSchemeChar = true ∧
      (splitScheme w).1.map pyLower = (splitScheme w).1) := by
  by_cases hc : schemeCondition w = true
  · have h1 : (splitScheme w).1 = (w.takeWhile (fun c => !(c = ':'))).map pyLower := by
      unfold splitScheme
      rw [if_pos hc]
    obtain ⟨hne, hhead, hall⟩ := schemeCondition_parts w hc
    right
    rw [h1]
    refine ⟨?_, ?_, ?_⟩
    · cases hpre : w.takeWhile (fun c => !(c = ':')) with
      | nil => exact absurd hpre hne
      | cons a t =>
        rw [hpre] at hhead
        simp only [List.map_cons, headAlpha] at hhead ⊢
        exact pyLower_isAsciiAlpha hhead
    · rw [List.all_eq_true]
      intro c hcm
      obtain ⟨d, hd, hde⟩ := List.mem_map.mp hcm
      rw [← hde]
      exact pyLower_isSchemeChar (List.all_eq_true.mp hall d hd)
    · rw [List.map_map]
      apply List.map_congr_left
      intro a _
      exact pyLower_idem a
  · left
    unfold splitScheme
    rw [if_neg hc]

theorem splitScheme_of_empty (w : PyStr) (h : (splitScheme w).1 = []) :
    (splitScheme w).2 = w ∧ schemeCondition w = false := by
  by_cases hc : schemeCondition w = true
  · exfalso
    obtain ⟨hne, _, _⟩ := schemeCondition_parts w hc
    unfold splitScheme at h
    rw [if_pos hc] at h
    exact hne (List.map_eq_nil_iff.mp h)
  · constructor
    · unfold splitScheme
      rw [if_neg hc]
    · exact Bool.eq_false_iff.mpr hc

theorem splitNetloc_wf (w : PyStr) : (splitNetloc w).1.all notNetlocDelim = true := by
  unfold splitNetloc
  by_cases hc : w.take 2 = ['/', '/']
  · rw [if_pos hc]
    rw [List.all_eq_true]
    exact fun c hcm => twMem _ c hcm
  · rw [if_neg hc]
    rfl

theorem notNetlocDelim_false {c : Char} (h : notNetlocDelim c = false) :
    c = '/' ∨ c = '?' ∨ c = '#' := by
  by_cases h1 : c = '/'
  · exact Or.inl h1
  · by_cases h2 : c = '?'
    · exact Or.inr (Or.inl h2)
    · by_cases h3 : c = '#'
      · exact Or.inr (Or.inr h3)
      · exfalso
        unfold notNetlocDelim at h
        simp [h1, h2, h3] at h

theorem splitPure_path_no_special (w : PyStr) :
    ∀ c ∈ (splitPure w).path, ¬ c = '#' ∧ ¬ c = '?' := by
  intro c hc
  show ¬ c = '#' ∧ ¬ c = '?'
  constructor
  · have hmem := (splitQuery_sub _).1 c hc
    have := twMem _ c hmem
    simpa using this
  · have := twMem _ c hc
    simpa using this

theorem splitPure_query_no_hash (w : PyStr) :
    ∀ c ∈ (splitPure w).query, ¬ c = '#' := by
  intro c hc
  have hmem := (splitQuery_sub _).2 c hc
  have := twMem _ c hmem
  simpa using this

theorem orSlash_ne_nil (p : PyStr) : orSlash p ≠ [] := by
  unfold orSlash
  by_cases h : p = []
  · rw [if_pos h]
    exact List.cons_ne_nil _ _
  · rw [if_neg h]
    exact h

theorem orSlash_of_ne_nil (p : PyStr) (h : p ≠ []) : orSlash p = p := by
  unfold orSlash
  rw [if_neg h]

theorem mem_orSlash (p : PyStr) (c : Char) (hc : c ∈ orSlash p) :
    c ∈ p ∨ c = '/' := by
  unfold orSlash at hc
  by_cases h : p = []
  · rw [if_pos h] at hc
    right
    simpa using hc
  · rw [if_neg h] at hc
    exact Or.inl hc

theorem ruStripPath_slash (r : PyStr) : ∃ t, ruStripPath ('/' :: r) = '/' :: t := by
  unfold ruStripPath
  by_cases h1 : (('/' :: r : PyStr)) = ['/', 'r', 'u']
  · rw [if_pos h1]
    exact ⟨[], rfl⟩
  · rw [if_neg h1]
    by_cases h2 : (['/', 'r', 'u', '/'] : PyStr).isPrefixOf ('/' :: r) = true
    · rw [if_pos h2]
      obtain ⟨rest, hrest⟩ := List.isPrefixOf_iff_prefix.mp h2
      refine ⟨rest, ?_⟩
      rw [← hrest]
      rfl
    · rw [if_neg h2]
      exact ⟨r, rfl⟩

theorem ruStripPath_ne_nil (p : PyStr) (h : p ≠ []) : ruStripPath p ≠ [] := by
  unfold ruStripPath
  by_cases h1 : p = ['/', 'r', 'u']
  · rw [if_pos h1]
    exact List.cons_ne_nil _ _
  · rw [if_neg h1]
    by_cases h2 : (['/', 'r', 'u', '/'] : PyStr).isPrefixOf p = true
    · rw [if_pos h2]
      obtain ⟨rest, hrest⟩ := List.isPrefixOf_iff_prefix.mp h2
      rw [← hrest]
      have h3 : List.drop 3 ((['/', 'r', 'u', '/'] : PyStr) ++ rest) = '/' :: rest := rfl
      rw [h3]
      exact List.cons_ne_nil _ _
    · rw [if_neg h2]
      exact h

theorem mem_ruStripPath (p : PyStr) (c : Char) (hc : c ∈ ruStripPath p) :
    c ∈ p ∨ c = '/' := by
  unfold ruStripPath at hc
  by_cases h1 : p = ['/', 'r', 'u']
  · rw [if_pos h1] at hc
    right
    simpa using hc
  · rw [if_neg h1] at hc
    by_cases h2 : (['/', 'r', 'u', '/'] : PyStr).isPrefixOf p = true
    · rw [if_pos h2] at hc
      exact Or.inl (dropSub 3 p c hc)
    · rw [if_neg h2] at hc
      exact Or.inl hc

theorem ruStripPath_of_head_ne (a : Char) (t : PyStr) (h : ¬ a = '/') :
    ruStripPath (a :: t) = a :: t := by
  unfold ruStripPath
  have h1 : ¬ ((a :: t : PyStr) = ['/', 'r', 'u']) := by
    intro hcontra
    injection hcontra with hh _
    exact h hh
  have h2 : ¬ ((['/', 'r', 'u', '/'] : PyStr).isPrefixOf (a :: t) = true) := by
    intro hcontra
    obtain ⟨rest, hrest⟩ := List.isPrefixOf_iff_prefix.mp hcontra
    have h3 : (['/', 'r', 'u', '/'] : PyStr) ++ rest =
        '/' :: ('r' :: 'u' :: '/' :: rest) := rfl
    rw [h3] at hrest
    injection hrest with hh _
    exact h hh.symm
  rw [if_neg h1, if_neg h2]

theorem ruStripPath_of_not_ruish (p : PyStr) (h : ruishPath p = false) :
    ruStripPath p = p := by
  unfold ruishPath at h
  rw [Bool.or_eq_false_iff] at h
  have h2 : ¬ ((['/', 'r', 'u', '/'] : PyStr).isPrefixOf p = true) := by
    intro hcontra
    rw [h.2] at hcontra
    exact Bool.noConfusion hcontra
  unfold ruStripPath
  rw [if_neg (of_decide_eq_false h.1), if_neg h2]

theorem mem_pstrip (w : PyStr) (c : Char)
    (hc : c ∈ ruStripPath (orSlash (splitPure w).path)) :
    c ∈ (splitPure w).path ∨ c = '/' := by
  rcases mem_ruStripPath _ c hc with h | h
  · rcases mem_orSlash _ c h with h2 | h2
    · exact Or.inl h2
    · exact Or.inr h2
  · exact Or.inr h

theorem urlSafeChar_props (c : Char) (h : urlSafeChar c = true) :
    isPySpace c = false ∧ isC0OrSpace c = false ∧ isUnsafeUrlByte c = false := by
  obtain ⟨h1, h2, h3⟩ := urlSafeChar_toNat h
  simp only [isPySpace, isC0OrSpace, isUnsafeUrlByte, Bool.or_eq_false_iff,
    decide_eq_false_iff_not]
  omega

theorem filter_all_true {p : Char → Bool} :
    ∀ l : PyStr, (∀ c ∈ l, p c = true) → l.filter p = l := by
  intro l h
  induction l with
  | nil => rfl
  | cons c r ih =>
    rw [List.filter_cons_of_pos (h c (List.mem_cons_self c r))]
    rw [ih (fun x hx => h x (List.mem_cons_of_mem c hx))]

theorem strip_ru_eq (w : PyStr) (hw : w ≠ [])
    (hsafe : ∀ c ∈ w, urlSafeChar c = true) :
    strip_ru w = urlunsplit (UrlParts.mk (splitPure w).scheme (splitPure w).netloc
      (ruStripPath (orSlash (splitPure w).path)) (splitPure w).query
      (splitPure w).fragment) := by
  have hstrip : pyStrip w = w :=
    pyStrip_of_no_space (fun c hc => (urlSafeChar_props c (hsafe c hc)).1)
  have hprep : preprocessUrl w = w := by
    unfold preprocessUrl
    rw [dropWhile_all_false w (fun c hc => (urlSafeChar_props c (hsafe c hc)).2.1)]
    apply filter_all_true
    intro c hc
    simp [(urlSafeChar_props c (hsafe c hc)).2.2]
  simp only [strip_ru]
  rw [if_neg hw, hstrip]
  simp only [urlsplit]
  rw [hprep]

theorem tqf_head_slash (t : PyStr) :
    ∃ r, ((('/' : Char) :: t).takeWhile (fun c => !(c = '#'))).takeWhile
      (fun c => !(c = '?')) = '/' :: r := by
  rw [show ((('/' : Char) :: t).takeWhile (fun c => !(c = '#'))) =
      '/' :: t.takeWhile (fun c => !(c = '#')) from List.takeWhile_cons_of_pos rfl]
  rw [show (('/' :: t.takeWhile (fun c => !(c = '#'))).takeWhile
      (fun c => !(c = '?'))) =
      '/' :: (t.takeWhile (fun c => !(c = '#'))).takeWhile (fun c => !(c = '?'))
      from List.takeWhile_cons_of_pos rfl]
  exact ⟨_, rfl⟩

theorem tqf_head_q (t : PyStr) :
    ((('?' : Char) :: t).takeWhile (fun c => !(c = '#'))).takeWhile
      (fun c => !(c = '?')) = [] := by
  rw [show ((('?' : Char) :: t).takeWhile (fun c => !(c = '#'))) =
      '?' :: t.takeWhile (fun c => !(c = '#')) from List.takeWhile_cons_of_pos rfl]
  rw [show (('?' :: t.takeWhile (fun c => !(c = '#'))).takeWhile
      (fun c => !(c = '?'))) = [] from List.takeWhile_cons_of_neg (by decide)]

theorem tqf_head_hash (t : PyStr) :
    ((('#' : Char) :: t).takeWhile (fun c => !(c = '#'))).takeWhile
      (fun c => !(c = '?')) = [] := by
  rw [show ((('#' : Char) :: t).takeWhile (fun c => !(c = '#'))) = ([] : PyStr)
      from List.takeWhile_cons_of_neg (by decide)]
  rfl

theorem netloc_branch_path_shape (l : PyStr) :
    ((l.dropWhile notNetlocDelim).takeWhile (fun c => !(c = '#'))).takeWhile
      (fun c => !(c = '?')) = [] ∨
    ∃ r, ((l.dropWhile notNetlocDelim).takeWhile (fun c => !(c = '#'))).takeWhile
      (fun c => !(c = '?')) = '/' :: r := by
  cases hdw : l.dropWhile notNetlocDelim with
  | nil =>
    left
    rfl
  | cons a t =>
    have hfa := dwHead l a t hdw
    rcases notNetlocDelim_false hfa with h | h | h
    · right
      rw [h]
      exact tqf_head_slash t
    · left
      rw [h]
      exact tqf_head_q t
    · left
      rw [h]
      exact tqf_head_hash t

theorem splitPure_netloc_path (w : PyStr) (hn : (splitPure w).netloc ≠ []) :
    (splitPure w).path = [] ∨ ∃ r, (splitPure w).path = '/' :: r := by
  have hpath : (splitPure w).path =
      ((splitNetloc (splitScheme w).2).2.takeWhile (fun c => !(c = '#'))).takeWhile
        (fun c => !(c = '?')) := rfl
  by_cases hc : (splitScheme w).2.take 2 = ['/', '/']
  · have h2 : (splitNetloc (splitScheme w).2).2 =
        ((splitScheme w).2.drop 2).dropWhile notNetlocDelim := by
      unfold splitNetloc
      rw [if_pos hc]
    rcases netloc_branch_path_shape ((splitScheme w).2.drop 2) with h | ⟨r, hr⟩
    · left
      rw [hpath, h2]
      exact h
    · right
      refine ⟨r, ?_⟩
      rw [hpath, h2]
      exact hr
  · exfalso
    apply hn
    have h3 : (splitNetloc (splitScheme w).2).1 = [] := by
      unfold splitNetloc
      rw [if_neg hc]
    exact h3

theorem schemeSafeB_head (a : Char) (r : PyStr) (h : a = '/' ∨ a = ':') :
    schemeSafeB (a :: r) = true := by
  unfold schemeSafeB
  rcases h with h | h <;> subst h
  · have h1 : ((('/' : Char) :: r).take 1) = ['/'] := rfl
    rw [h1, (by decide : (decide ((['/'] : PyStr) = ['/'])) = true),
      Bool.true_or, Bool.true_or, Bool.true_or]
  · have h1 : (((':' : Char) :: r).take 1) = [':'] := rfl
    rw [h1, (by decide : (decide (([':'] : PyStr) = ['/'])) = false),
      (by decide : (decide (([':'] : PyStr) = [':'])) = true),
      Bool.false_or, Bool.true_or, Bool.true_or]

theorem schemeSafeB_no_colon (p : PyStr) (h : ¬ (':' : Char) ∈ p) :
    schemeSafeB p = true := by
  unfold schemeSafeB
  rw [decide_eq_false h, Bool.not_false, Bool.or_true, Bool.true_or]

theorem schemeSafeB_tail (w : PyStr) (a : Char) (t : PyStr)
    (hcond : schemeCondition w = false)
    (hpp : ∃ tw, (a :: t) ++ tw = w)
    (hm : (':' : Char) ∈ a :: t) (hane : ¬ a = ':') :
    schemeSafeB (a :: t) = true := by
  obtain ⟨tw, htw⟩ := hpp
  have hpre : w.takeWhile (fun x => !(x = ':')) =
      (a :: t).takeWhile (fun x => !(x = ':')) := by
    rw [← htw]
    exact twStopAppend (a :: t) tw ':' hm rfl
  have hfail : (headAlpha ((a :: t).takeWhile (fun x => !(x = ':'))) &&
      ((a :: t).takeWhile (fun x => !(x = ':'))).all isSchemeChar) = false := by
    by_cases hcontra : (headAlpha ((a :: t).takeWhile (fun x => !(x = ':'))) &&
        ((a :: t).takeWhile (fun x => !(x = ':'))).all isSchemeChar) = true
    · exfalso
      rw [Bool.and_eq_true] at hcontra
      have hlt : (w.takeWhile (fun x => !(x = ':'))).length < w.length := by
        refine twLtLength w ':' ?_ rfl
        rw [← htw]
        exact List.mem_append_left tw hm
      have hpe : ((a :: t).takeWhile (fun x => !(x = ':'))) =
          a :: (t.takeWhile (fun x => !(x = ':'))) := by
        refine List.takeWhile_cons_of_pos ?_
        simp [hane]
      have hcT : schemeCondition w = true := by
        simp only [schemeCondition, Bool.and_eq_true]
        refine ⟨⟨⟨?_, ?_⟩, ?_⟩, ?_⟩
        · exact decide_eq_true hlt
        · simp [hpre, hpe, List.isEmpty_cons]
        · rw [hpre]
          exact hcontra.1
        · rw [hpre]
          exact hcontra.2
      rw [hcT] at hcond
      exact Bool.noConfusion hcond
    · exact Bool.eq_false_iff.mpr hcontra
  unfold schemeSafeB
  rw [hfail, Bool.not_false, Bool.or_true]

theorem splitPure_safe_path (w : PyStr) (hs : (splitPure w).scheme = [])
    (_hn : (splitPure w).netloc = []) :
    schemeSafeB (ruStripPath (orSlash (splitPure w).path)) = true := by
  have hsw : (splitScheme w).1 = [] := hs
  obtain ⟨hr1, hcond⟩ := splitScheme_of_empty w hsw
  have hpath : (splitPure w).path =
      ((splitNetloc (splitScheme w).2).2.takeWhile (fun c => !(c = '#'))).takeWhile
        (fun c => !(c = '?')) := rfl
  by_cases hc : (splitScheme w).2.take 2 = ['/', '/']
  · have h2 : (splitNetloc (splitScheme w).2).2 =
        ((splitScheme w).2.drop 2).dropWhile notNetlocDelim := by
      unfold splitNetloc
      rw [if_pos hc]
    rcases netloc_branch_path_shape ((splitScheme w).2.drop 2) with h | ⟨r, hr⟩
    · have h3 : (splitPure w).path = [] := by
        rw [hpath, h2]
        exact h
      have h4 : orSlash (splitPure w).path = ['/'] := by
        rw [h3]
        rfl
      rw [h4]
      obtain ⟨t2, ht2⟩ := ruStripPath_slash []
      rw [ht2]
      exact schemeSafeB_head '/' t2 (Or.inl rfl)
    · have h3 : (splitPure w).path = '/' :: r := by
        rw [hpath, h2]
        exact hr
      have h4 : orSlash (splitPure w).path = '/' :: r := by
        rw [h3]
        unfold orSlash
        rw [if_neg (List.cons_ne_nil _ _)]
      rw [h4]
      obtain ⟨t2, ht2⟩ := ruStripPath_slash r
      rw [ht2]
      exact schemeSafeB_head '/' t2 (Or.inl rfl)
  · have h2 : (splitNetloc (splitScheme w).2).2 = (splitScheme w).2 := by
      unfold splitNetloc
      rw [if_neg hc]
    have hpath2 : (splitPure w).path =
        (w.takeWhile (fun c => !(c = '#'))).takeWhile (fun c => !(c = '?')) := by
      rw [hpath, h2, hr1]
    cases hpp : (w.takeWhile (fun c => !(c = '#'))).takeWhile (fun c => !(c = '?')) with
    | nil =>
      have h4 : orSlash (splitPure w).path = ['/'] := by
        rw [hpath2, hpp]
        rfl
      rw [h4]
      obtain ⟨t2, ht2⟩ := ruStripPath_slash []
      rw [ht2]
      exact schemeSafeB_head '/' t2 (Or.inl rfl)
    | cons a t =>
      have h4 : orSlash (splitPure w).path = a :: t := by
        rw [hpath2, hpp]
        unfold orSlash
        rw [if_neg (List.cons_ne_nil _ _)]
      rw [h4]
      by_cases ha : a = '/'
      · subst ha
        obtain ⟨t2, ht2⟩ := ruStripPath_slash t
        rw [ht2]
        exact schemeSafeB_head '/' t2 (Or.inl rfl)
      · rw [ruStripPath_of_head_ne a t ha]
        by_cases hac : a = ':'
        · subst hac
          exact schemeSafeB_head ':' t (Or.inr rfl)
        · by_cases hmem : (':' : Char) ∈ a :: t
          · have e1 : (w.takeWhile (fun c => !(c = '#'))) ++
                (w.dropWhile (fun c => !(c = '#'))) = w :=
              List.takeWhile_append_dropWhile _ _
            have e2 : ((w.takeWhile (fun c => !(c = '#'))).takeWhile
                (fun c => !(c = '?'))) ++
                ((w.takeWhile (fun c => !(c = '#'))).dropWhile
                (fun c => !(c = '?'))) = w.takeWhile (fun c => !(c = '#')) :=
              List.takeWhile_append_dropWhile _ _
            have hpp2 : ∃ tw, (a :: t) ++ tw = w := by
              refine ⟨(w.takeWhile (fun c => !(c = '#'))).dropWhile
                (fun c => !(c = '?')) ++ w.dropWhile (fun c => !(c = '#')), ?_⟩
              rw [← hpp, ← List.append_assoc, e2, e1]
            exact schemeSafeB_tail w a t hcond hpp2 hmem hac
          · exact schemeSafeB_no_colon _ hmem

theorem strip_ru_idem (x : PyStr) (hx : x ≠ [])
    (hsafe : ∀ c ∈ x, urlSafeChar c = true)
    (hru : ruishPath (ruStripPath (orSlash (splitPure x).path)) = false) :
    strip_ru (strip_ru x) = strip_ru x := by
  have h1 := strip_ru_eq x hx hsafe
  have hp0 : ruStripPath (orSlash (splitPure x).path) ≠ [] :=
    ruStripPath_ne_nil _ (orSlash_ne_nil _)
  have hsplit : splitPure (urlunsplit (UrlParts.mk (splitPure x).scheme
      (splitPure x).netloc (ruStripPath (orSlash (splitPure x).path))
      (splitPure x).query (splitPure x).fragment)) =
      UrlParts.mk (splitPure x).scheme (splitPure x).netloc
        (ruStripPath (orSlash (splitPure x).path)) (splitPure x).query
        (splitPure x).fragment := by
    refine splitPure_unsplit _ _ _ _ _ ?_ ?_ ?_ ?_ ?_ ?_ ?_ ?_
    · exact splitScheme_wf x
    · exact splitNetloc_wf (splitScheme x).2
    · exact hp0
    · intro c hc
      rcases mem_pstrip x c hc with h | h
      · exact (splitPure_path_no_special x c h).1
      · subst h
        decide
    · intro c hc
      rcases mem_pstrip x c hc with h | h
      · exact (splitPure_path_no_special x c h).2
      · subst h
        decide
    · intro hnne
      rcases splitPure_netloc_path x hnne with h | ⟨r, hr⟩
      · have h2 : orSlash (splitPure x).path = ['/'] := by
          rw [h]
          rfl
        rw [h2]
        exact ruStripPath_slash []
      · have h2 : orSlash (splitPure x).path = '/' :: r := by
          rw [hr]
          unfold orSlash
          rw [if_neg (List.cons_ne_nil _ _)]
        rw [h2]
        exact ruStripPath_slash r
    · exact splitPure_query_no_hash x
    · intro hs0 hn0 _
      exact splitPure_safe_path x hs0 hn0
  have hz_ne : strip_ru x ≠ [] := by
    intro hz0
    rw [h1] at hz0
    rw [hz0] at hsplit
    have h3 : ruStripPath (orSlash (splitPure x).path) = [] :=
      (congrArg UrlParts.path hsplit).symm
    exact hp0 h3
  have hzsafe : ∀ c ∈ strip_ru x, urlSafeChar c = true := by
    intro c hc
    rw [h1] at hc
    rcases mem_urlunsplit _ c hc with h | h | h | h | h | h | h | h | h
    · obtain ⟨d, hd, hde⟩ := (splitPure_sub x).1 c h
      rw [hde]
      exact pyLower_safe (hsafe d hd)
    · exact hsafe c ((splitPure_sub x).2.1 c h)
    · rcases mem_pstrip x c h with h2 | h2
      · exact hsafe c ((splitPure_sub x).2.2.1 c h2)
      · subst h2
        decide
    · exact hsafe c ((splitPure_sub x).2.2.2.1 c h)
    · exact hsafe c ((splitPure_sub x).2.2.2.2 c h)
    · subst h
      decide
    · subst h
      decide
    · subst h
      decide
    · subst h
      decide
  have h2 := strip_ru_eq (strip_ru x) hz_ne hzsafe
  rw [h2, h1, hsplit]
  show urlunsplit (UrlParts.mk (splitPure x).scheme (splitPure x).netloc
      (ruStripPath (orSlash (ruStripPath (orSlash (splitPure x).path))))
      (splitPure x).query (splitPure x).fragment) =
    urlunsplit (UrlParts.mk (splitPure x).scheme (splitPure x).netloc
      (ruStripPath (orSlash (splitPure x).path)) (splitPure x).query
      (splitPure x).fragment)
  rw [orSlash_of_ne_nil _ hp0, ruStripPath_of_not_ruish _ hru]

/-- C3 counterexample: strip_ru_prefix is not idempotent on every URL.  On
"https://h/ru/ru/x" one application yields "https://h/ru/x" and a second
application strips again, yielding "https://h/x". -/
theorem c3_counterexample :
    stripRuS (stripRuS "https://h/ru/ru/x") ≠ stripRuS "https://h/ru/ru/x" := by
  decide

/-- C3 (amended): strip_ru_prefix strips exactly the leading /ru locale
segment, so "https://h/ru/x" and "https://h/x" both normalize to
"https://h/x"; and it is idempotent on every nonempty URL made of
whitespace-and-control-free characters whose once-stripped path does not
again begin with the /ru segment.  Unconditional idempotence fails (see the
counterexample with a doubled /ru/ru path). -/
theorem c3_normalize_amended (x : PyStr) (hx : x ≠ [])
    (hsafe : x.all urlSafeChar = true)
    (hru : ruishPath (ruStripPath (orSlash (splitPure x).path)) = false) :
    strip_ru (strip_ru x) = strip_ru x ∧
    stripRuS "https://h/ru/x" = "https://h/x" ∧
    stripRuS "https://h/x" = "https://h/x" :=
  ⟨strip_ru_idem x hx (fun c hc => List.all_eq_true.mp hsafe c hc) hru,
   by decide, by decide⟩

theorem c3_witness :
    (("https://h/ru/x").data ≠ [] ∧
      ("https://h/ru/x").data.all urlSafeChar = true ∧
      ruishPath (ruStripPath (orSlash
        (splitPure ("https://h/ru/x").data).path)) = false) ∧
    (strip_ru (strip_ru ("https://h/ru/x").data) =
        strip_ru ("https://h/ru/x").data ∧
      stripRuS "https://h/ru/x" = "https://h/x" ∧
      stripRuS "https://h/x" = "https://h/x") :=
  ⟨⟨by decide, by decide, by decide⟩,
   c3_normalize_amended ("https://h/ru/x").data (by decide) (by decide)
     (by decide)⟩
